import Mathlib

/-!
# Silenda: file codec and dual-password credential store

A shallow embedding of `crypto.go`, `storage.go` and the password setters of
`main.go`, followed by theorems about it.

Conventions of the embedding.

* A byte is a `Nat`; a byte slice, and a Go string holding a file name, is a
  `List Nat`.  Passwords arrive from the UI as text and are Lean `String`s:
  `len(pass)` is `String.utf8ByteSize` and `range pass` visits `String.data`.
* Go `error` values are `Option GoError`, `none` being `nil`.
* Library code that is not part of the repository is a parameter: the
  bcrypt and MD5 functions (`Lib`), the Unicode class tests (`Unicode`), the
  AES-CTR key stream (`Encoder.stream`), the outcome of the operating-system
  calls (`Env`).
* One directory is modelled: a path is identified with its base name, so
  `filepath.Base` and `filepath.Join(filepath.Dir(path), name)` are the
  identity on names.
-/

namespace Silenda

abbrev Bytes := List Nat

/-- Go `error` values the code can observe. -/
inductive GoError
  | eof
  | unexpectedEOF
  | perm
  | other
  deriving DecidableEq, Repr

/-! ## storage.go -/

/-- The bcrypt and MD5 library functions used by `storage.go`.
`generate salt raw` is `bcrypt.GenerateFromPassword` with its randomness made
explicit (`none` is a returned error), `compare h raw` tells whether
`bcrypt.CompareHashAndPassword` returns `nil`, `md5Sum` is `md5.Sum`. -/
structure Lib where
  generate : Nat → String → Option Bytes
  compare : Bytes → String → Bool
  md5Sum : String → Bytes

def max_tries : Int := 3

abbrev Hash := Bytes

/-- The value of `Hash{}`: sixty zero bytes. -/
def Hash.zero : Hash := List.replicate 60 0

/-- Go's builtin `copy(dst, src)`: the first `min (len dst) (len src)` bytes
of `dst` are replaced. -/
def copy (dst src : Bytes) : Bytes :=
  src.take dst.length ++ dst.drop src.length

/-- `Hash.Make`: the receiver is changed only when bcrypt succeeds. -/
def Hash.Make (L : Lib) (salt : Nat) (h : Hash) (raw : String) : Option GoError × Hash :=
  match L.generate salt raw with
  | none => (some GoError.other, h)
  | some hash => (none, copy h hash)

/-- `Hash.Compare`, as the test `err == nil`. -/
def Hash.Compare (L : Lib) (h : Hash) (raw : String) : Bool :=
  L.compare h raw

def Hash.IsEmpty (p : Hash) : Bool :=
  decide (p = Hash.zero)

structure Password where
  Fake : Hash
  Real : Hash

/-- The in-memory fields of `Storage`; the open credential file is
represented by the outcome of `Update` passed to the setters. -/
structure Storage where
  pass : Password
  token : Bytes
  tries : Int

/-- The value of `[16]byte{}`. -/
def zeroToken : Bytes := List.replicate 16 0

/-- The store built by `NewStorage` when no credential file exists. -/
def Storage.fresh : Storage :=
  { pass := { Fake := Hash.zero, Real := Hash.zero }, token := zeroToken, tries := 0 }

/-- Two's-complement wrap of a Go `int` (64 bits). -/
def wrapInt (x : Int) : Int :=
  (x + 2 ^ 63) % 2 ^ 64 - 2 ^ 63

def Storage.Ready (s : Storage) : Bool :=
  !s.pass.Real.IsEmpty && !s.pass.Fake.IsEmpty

def Storage.IsLogged (s : Storage) : Bool :=
  !decide (s.token = zeroToken)

/-- Outcome of one `Login` call: the returned boolean, the store afterwards
and the number of times `Kill` (hence `usbWrite`) was invoked. -/
structure LoginResult where
  ok : Bool
  st : Storage
  kills : Nat

def Storage.Login (L : Lib) (s : Storage) (token : String) : LoginResult :=
  if Hash.Compare L s.pass.Fake token then
    { ok := false, st := s, kills := 1 }
  else if Hash.Compare L s.pass.Real token then
    { ok := true, st := { s with token := L.md5Sum token }, kills := 0 }
  else
    let s1 : Storage := { s with tries := wrapInt (s.tries + 1) }
    if s1.tries ≥ max_tries then
      { ok := false, st := s1, kills := 1 }
    else
      { ok := false, st := s1, kills := 0 }

/-- The branch of `Login` taken on a candidate. -/
inductive LoginPath
  | duress
  | authenticated
  | lockout
  | miss
  deriving DecidableEq, Repr

def Storage.path (L : Lib) (s : Storage) (token : String) : LoginPath :=
  if Hash.Compare L s.pass.Fake token then LoginPath.duress
  else if Hash.Compare L s.pass.Real token then LoginPath.authenticated
  else if wrapInt (s.tries + 1) ≥ max_tries then LoginPath.lockout
  else LoginPath.miss

/-- Runs `Login` on each candidate in turn; returns the final store and the
total number of `Kill` invocations. -/
def Storage.LoginAll (L : Lib) : Storage → List String → Storage × Nat
  | s, [] => (s, 0)
  | s, c :: cs =>
    let r := s.Login L c
    let t := Storage.LoginAll L r.st cs
    (t.1, r.kills + t.2)

/-! ## main.go: the password setters -/

def unkn_error : String := "unknown error"
def perm_error : String := "permission denied"
def pass_same : String := "real and fake passwords are the same"
def pass_simple : String := "password is too simple"

/-- The tagged value returned to the UI: `Ok(true)` or `Error(msg)`. -/
inductive Reply
  | Ok
  | Error (msg : String)
  deriving DecidableEq, Repr

/-- The tests of package `unicode` used by `setRealPass`: `IsUpper` and
`IsLower` hold of the letters of category Lu and Ll, `IsNumber` of the
characters of category N. -/
structure Unicode where
  IsUpper : Char → Bool
  IsLower : Char → Bool
  IsNumber : Char → Bool

/-- Translation of the error of `storage.Update()` into a reply. -/
def updateReply : Option GoError → Reply
  | none => Reply.Ok
  | some GoError.perm => Reply.Error perm_error
  | some _ => Reply.Error unkn_error

/-- `setFakePass`; `upd` is what `storage.Update()` returns. -/
def setFakePass (L : Lib) (salt : Nat) (upd : Option GoError) (s : Storage)
    (opt : List String) : Reply × Storage :=
  match opt with
  | [cand] =>
    if Hash.Compare L s.pass.Real cand then (Reply.Error pass_same, s)
    else
      match Hash.Make L salt s.pass.Fake cand with
      | (some _, _) => (Reply.Error unkn_error, s)
      | (none, h) =>
        (updateReply upd, { s with pass := { s.pass with Fake := h } })
  | _ => (Reply.Error unkn_error, s)

/-- The flags and the counter of the `range` loop of `setRealPass`. -/
structure Scan where
  upp : Bool
  low : Bool
  num : Bool
  cnt : Nat

/-- One iteration of the loop: `cnt++`, then the `switch`. -/
def scanStep (U : Unicode) (a : Scan) (char : Char) : Scan :=
  let a1 : Scan := { a with cnt := a.cnt + 1 }
  if U.IsUpper char then { a1 with upp := true }
  else if U.IsLower char then { a1 with low := true }
  else if U.IsNumber char then { a1 with num := true }
  else a1

def scanPass (U : Unicode) (pass : String) : Scan :=
  pass.data.foldl (scanStep U) { upp := false, low := false, num := false, cnt := 0 }

/-- `setRealPass`; `upd` is what `storage.Update()` returns. -/
def setRealPass (L : Lib) (U : Unicode) (salt : Nat) (upd : Option GoError) (s : Storage)
    (opt : List String) : Reply × Storage :=
  match opt with
  | [pass] =>
    if Hash.Compare L s.pass.Fake pass then (Reply.Error pass_same, s)
    else if pass.utf8ByteSize < 6 then (Reply.Error pass_simple, s)
    else
      let a := scanPass U pass
      if !a.upp || !a.low || !a.num || decide (a.cnt < 6) then (Reply.Error pass_simple, s)
      else
        match Hash.Make L salt s.pass.Real pass with
        | (some _, _) => (Reply.Error unkn_error, s)
        | (none, h) =>
          (updateReply upd, { s with pass := { s.pass with Real := h } })
  | _ => (Reply.Error unkn_error, s)

/-! ## crypto.go: streams -/

/-- Little-endian value of a byte slice (`binary.LittleEndian.Uint64`,
`Uint16`). -/
def leValue : Bytes → Nat
  | [] => 0
  | b :: bs => b + 256 * leValue bs

/-- Little-endian bytes of `v` on `n` bytes (`PutUint64`, `PutUint16`); the
value is reduced modulo `256 ^ n` as the conversion to the unsigned type does. -/
def lePut : Nat → Nat → Bytes
  | 0, _ => []
  | n + 1, v => v % 256 :: lePut n (v / 256)

def MARKER : Nat :=
  leValue [0xd7, 0x21, 0xa6, 0xfa, 0xa1, 0x15, 0x2d, 0xc8]

/-- A readable stream positioned somewhere in its data: `rest` is what is
still to be delivered; `bad` tells whether the medium then reports an I/O
error instead of end of file. -/
structure Reader where
  rest : Bytes
  bad : Bool

/-- `Read(p)` with `len(p) = n` on a file or a `strings.Reader`. -/
def Reader.Read (r : Reader) (n : Nat) : Bytes × Option GoError × Reader :=
  if n = 0 then ([], none, r)
  else
    match r.rest with
    | [] => ([], some (if r.bad then GoError.other else GoError.eof), r)
    | _ :: _ => (r.rest.take n, none, { r with rest := r.rest.drop n })

/-- `io.ReadFull(r, p)` with `len(p) = n`. -/
def Reader.ReadFull (r : Reader) (n : Nat) : Bytes × Option GoError × Reader :=
  if n ≤ r.rest.length then (r.rest.take n, none, { r with rest := r.rest.drop n })
  else if r.bad then (r.rest, some GoError.other, { r with rest := [] })
  else if r.rest = [] then ([], some GoError.eof, r)
  else (r.rest, some GoError.unexpectedEOF, { r with rest := [] })

/-- The reader made by `io.LimitReader(R, N)`. -/
structure LimitedReader where
  R : Reader
  N : Int

def LimitedReader.Read (l : LimitedReader) (n : Nat) : Bytes × Option GoError × LimitedReader :=
  if l.N ≤ 0 then ([], some GoError.eof, l)
  else
    let n1 := if (n : Int) > l.N then l.N.toNat else n
    let r := l.R.Read n1
    (r.1, r.2.1, { R := r.2.2, N := l.N - r.1.length })

/-- The `io.Reader` held by the variable `in` of `encode` and `decode`. -/
inductive Input
  | plain (r : Reader)
  | limited (l : LimitedReader)

def Input.Read : Input → Nat → Bytes × Option GoError × Input
  | Input.plain r, n => let x := r.Read n; (x.1, x.2.1, Input.plain x.2.2)
  | Input.limited l, n => let x := l.Read n; (x.1, x.2.1, Input.limited x.2.2)

/-- The file (or string) reader underneath. -/
def Input.base : Input → Reader
  | Input.plain r => r
  | Input.limited l => l.R

/-- A writable stream: `data` is what has been written; `room` is the
number of bytes the medium still accepts (`none` for a `bytes.Buffer` or an
unlimited medium). -/
structure Writer where
  data : Bytes
  room : Option Nat

/-- `Write(b)`: what fits is written; a short write is an error. -/
def Writer.Write (w : Writer) (b : Bytes) : Option GoError × Writer :=
  match w.room with
  | none => (none, { w with data := w.data ++ b })
  | some k =>
    (if b.length ≤ k then none else some GoError.other,
     { data := w.data ++ b.take k, room := some (k - b.length) })

/-- `XORKeyStream` on a CTR stream whose next key-stream byte has index
`pos`. -/
def xorKeyStream (ks : Nat → Nat) : Nat → Bytes → Bytes
  | _, [] => []
  | pos, b :: bs => (b ^^^ ks pos) :: xorKeyStream ks (pos + 1) bs

/-- The `Encoder`: `stream iv i` is byte `i` of the key stream of
`cipher.NewCTR(e.block, iv)`, the block being AES under `token`. -/
structure Encoder where
  token : Bytes
  stream : Bytes → Nat → Nat

def Encoder.BlockSize (_e : Encoder) : Nat := 16

/-- The `for` loop shared by `encode` (lines 62-77) and `decode` (lines
101-116): read up to 1024 bytes, XOR and write them ignoring the result of
`Write`, stop on `io.EOF`, return any other error.  Every iteration that
does not stop consumes a byte, so `fuel` above the unread length is never
exhausted (`streamLoop_fuel`). -/
def streamLoop (ks : Nat → Nat) : Nat → Nat → Input → Writer → Option GoError × Input × Writer
  | 0, _, inp, out => (some GoError.other, inp, out)
  | fuel + 1, pos, inp, out =>
    let x := inp.Read 1024
    let out1 := if x.1.length > 0 then (out.Write (xorKeyStream ks pos x.1)).2 else out
    match x.2.1 with
    | some GoError.eof => (none, x.2.2, out1)
    | some err => (some err, x.2.2, out1)
    | none => streamLoop ks fuel (pos + x.1.length) x.2.2 out1

/-- The IV buffer after `io.ReadFull(rand.Reader, iv)` or `in.Read(iv)`:
sixteen zero bytes overwritten by what was read. -/
def ivOf (got : Bytes) : Bytes :=
  copy (List.replicate 16 0) got

/-- `Encoder.encode`; `rnd` is what `rand.Reader` delivers (`none`: its
error). -/
def Encoder.encode (e : Encoder) (rnd : Option Bytes) (inp : Reader) (out : Writer) :
    Option GoError × Reader × Writer :=
  match rnd with
  | none => (some GoError.other, inp, out)
  | some got =>
    let iv := ivOf got
    match out.Write iv with
    | (some err, out1) => (some err, inp, out1)
    | (none, out1) =>
      let r := streamLoop (e.stream iv) (inp.rest.length + 1) 0 (Input.plain inp) out1
      (r.1, r.2.1.base, r.2.2)

/-- `Encoder.decode`. -/
def Encoder.decode (e : Encoder) (size : Int) (inp : Reader) (out : Writer) :
    Option GoError × Reader × Writer :=
  let x := inp.Read e.BlockSize
  match x.2.1 with
  | some err => (some err, x.2.2, out)
  | none =>
    let iv := ivOf x.1
    let src := if size > 0 then Input.limited { R := x.2.2, N := size } else Input.plain x.2.2
    let r := streamLoop (e.stream iv) (x.2.2.rest.length + 1) 0 src out
    (r.1, r.2.1.base, r.2.2)

/-! ## crypto.go: WipeFile -/

/-- Which steps of `WipeFile` fail. -/
structure WipeFaults where
  seek : Bool
  stat : Bool
  writeAt : Nat → Bool
  truncate : Bool
  sync : Bool

def WipeFaults.none : WipeFaults :=
  { seek := false, stat := false, writeAt := fun _ => false, truncate := false, sync := false }

/-- `file.WriteAt(buf, pos)` on the content of a file. -/
def WriteAt (data buf : Bytes) (pos : Nat) : Bytes :=
  data.take pos ++ List.replicate (pos - data.length) 0 ++ buf ++ data.drop (pos + buf.length)

/-- `file.Truncate(n)`. -/
def Truncate (data : Bytes) (n : Nat) : Bytes :=
  (data ++ List.replicate n 0).take n

def chunk : Nat := 65536

/-- The buffer written by iteration `i`: `bufsize` zero bytes after
`copy(zeros[:], "0")`, the string `"0"` being the single byte 0x30. -/
def wipeBuffer (size i : Nat) : Bytes :=
  let bufsize := min chunk (size - i * chunk)
  copy (List.replicate bufsize 0) [0x30]

/-- The `for` loop of `WipeFile`, `n` iterations from index `i`; returns the
error, the content and the list of `(offset, buffer)` passed to `WriteAt`. -/
def wipeLoop (F : WipeFaults) (size : Nat) :
    Nat → Nat → Nat → Bytes → Option GoError × Bytes × List (Nat × Bytes)
  | 0, _, _, data => (none, data, [])
  | n + 1, i, pos, data =>
    let zeros := wipeBuffer size i
    if F.writeAt i then (some GoError.other, data, [])
    else
      let r := wipeLoop F size n (i + 1) (pos + zeros.length) (WriteAt data zeros pos)
      (r.1, r.2.1, (pos, zeros) :: r.2.2)

/-- `parts`: the floating-point quotient rounded up; `float64` is exact on
the sizes below `2 ^ 53` that the embedding covers. -/
def wipeParts (size : Nat) : Nat :=
  (size + chunk - 1) / chunk

/-- The writes `WipeFile` issues on a file of the given content. -/
def wipeWrites (F : WipeFaults) (data : Bytes) : List (Nat × Bytes) :=
  (wipeLoop F data.length (wipeParts data.length) 0 0 data).2.2

/-- `Encoder.WipeFile` on the content of the open file: the error and the
content afterwards. -/
def WipeFile (F : WipeFaults) (data : Bytes) : Option GoError × Bytes :=
  if F.seek then (some GoError.other, data)
  else if F.stat then (some GoError.other, data)
  else
    let r := wipeLoop F data.length (wipeParts data.length) 0 0 data
    match r.1 with
    | some err => (some err, r.2.1)
    | none =>
      if F.truncate then (some GoError.other, r.2.1)
      else if F.sync then (some GoError.other, Truncate r.2.1 1)
      else (none, Truncate r.2.1 1)

/-! ## crypto.go: EncodeFile, DecodeFile, DecodeFileName -/

/-- The directory of the file being processed: name to content. -/
abbrev FS := Bytes → Option Bytes

def FS.set (fs : FS) (name : Bytes) (v : Option Bytes) : FS :=
  fun p => if p = name then v else fs p

/-- What the operating system and `rand.Reader` do during one call.
`openErr` is an error of `os.OpenFile`/`os.Open` on an existing path;
`tempName` is the name `ioutil.TempFile` settles on; `rand k` is draw `k`
from `rand.Reader`; `readBad = some k` makes the input medium fail after `k`
bytes; `room` is the space the output file may take. -/
structure Env where
  openErr : Option GoError
  tempName : Bytes
  tempFails : Bool
  rand : Nat → Option Bytes
  readBad : Option Nat
  room : Option Nat
  createFails : Bool
  wipe : WipeFaults
  removeFails : Bool

/-- The reader of a file just opened. -/
def openReader (content : Bytes) : Option Nat → Reader
  | none => { rest := content, bad := false }
  | some k => { rest := content.take k, bad := true }

/-- Content of a file opened with `O_CREATE|O_WRONLY` (no `O_TRUNC`) after
`written` has been written from offset 0. -/
def overwrite (old written : Bytes) : Bytes :=
  written ++ old.drop written.length

def Encoder.EncodeFile (e : Encoder) (env : Env) (fs : FS) (path : Bytes) :
    (Bytes × Option GoError) × FS :=
  match env.openErr, fs path with
  | some err, _ => (([], some err), fs)
  | none, none => (([], some GoError.other), fs)
  | none, some content =>
    if env.tempFails || (fs env.tempName).isSome then (([], some GoError.other), fs)
    else
      let fs1 := fs.set env.tempName (some [])
      let n := e.encode (env.rand 0) { rest := path, bad := false } { data := [], room := none }
      if n.1.isSome then (([], n.1), fs1)
      else
        let name := n.2.2.data
        let head := lePut 8 MARKER ++ lePut 2 name.length
        let t1 := Writer.Write { data := [], room := env.room } head
        if t1.1.isSome then (([], t1.1), fs.set env.tempName (some t1.2.data))
        else
          let t2 := t1.2.Write name
          if t2.1.isSome then (([], t2.1), fs.set env.tempName (some t2.2.data))
          else
            let c := e.encode (env.rand 1) (openReader content env.readBad) t2.2
            let fs2 := fs.set env.tempName (some c.2.2.data)
            if c.1.isSome then (([], c.1), fs2)
            else
              let w := WipeFile env.wipe content
              if w.1.isSome then (([], w.1), fs2.set path (some w.2))
              else if env.removeFails then (([], some GoError.other), fs2.set path (some w.2))
              else ((env.tempName, none), fs2.set path none)

/-- `int64(x)` for an unsigned 64-bit `x`. -/
def toInt64 (u : Nat) : Int :=
  if u < 2 ^ 63 then (u : Int) else (u : Int) - 2 ^ 64

/-- `int64(uint64(size) - e.BlockSize())`. -/
def nameBound (e : Encoder) (size : Nat) : Int :=
  toInt64 ((size % 2 ^ 64 + 2 ^ 64 - e.BlockSize) % 2 ^ 64)

/-- Where the common prefix of `DecodeFile` (lines 253-272) and
`DecodeFileName` (lines 323-342) leaves the caller: an early `return "", err`
or the file reader and the decoded name. -/
inductive NameStep
  | ret (err : Option GoError)
  | go (file : Reader) (name : Bytes)

/-- Header read, marker test and name decode, the same code in `DecodeFile`
and `DecodeFileName`. -/
def Encoder.readName (e : Encoder) (file : Reader) : NameStep :=
  let h := file.ReadFull 10
  let err := h.2.1
  if err.isSome then NameStep.ret err
  else if leValue (h.1.take 8) ≠ MARKER then NameStep.ret err
  else
    let size := leValue (h.1.drop 8)
    let d := e.decode (nameBound e size) h.2.2 { data := [], room := none }
    if d.1.isSome then NameStep.ret d.1
    else NameStep.go d.2.1 d.2.2.data

/-- `Encoder.DecodeFile`.  An empty decoded name makes `real_path` the
directory itself, which cannot be opened for writing.  The container is read
from a snapshot taken at open time; a container whose decoded name is its
own name, or a name that `filepath.Join` resolves outside the directory, is
outside the embedding. -/
def Encoder.DecodeFile (e : Encoder) (env : Env) (fs : FS) (path : Bytes) :
    (Bytes × Option GoError) × FS :=
  match env.openErr, fs path with
  | some err, _ => (([], some err), fs)
  | none, none => (([], some GoError.other), fs)
  | none, some content =>
    match e.readName (openReader content env.readBad) with
    | NameStep.ret err => (([], err), fs)
    | NameStep.go file name =>
      if env.createFails || decide (name = []) then (([], some GoError.other), fs)
      else
        let old := (fs name).getD []
        let c := e.decode 0 file { data := [], room := env.room }
        let fs1 := fs.set name (some (overwrite old c.2.2.data))
        if c.1.isSome then (([], c.1), fs1)
        else
          let w := WipeFile env.wipe content
          if w.1.isSome then (([], w.1), fs1.set path (some w.2))
          else if env.removeFails then (([], some GoError.other), fs1.set path (some w.2))
          else ((name, none), fs1.set path none)

/-- `Encoder.DecodeFileName`; the directory is not modified. -/
def Encoder.DecodeFileName (e : Encoder) (env : Env) (fs : FS) (path : Bytes) :
    Bytes × Option GoError :=
  match env.openErr, fs path with
  | some err, _ => ([], some err)
  | none, none => ([], some GoError.other)
  | none, some content =>
    match e.readName (openReader content env.readBad) with
    | NameStep.ret err => ([], err)
    | NameStep.go _ name => (name, none)

/-- An environment in which no step fails: draws `iv0` and `iv1` from
`rand.Reader`, temporary name `tmp`, unlimited space. -/
def Env.quiet (tmp iv0 iv1 : Bytes) : Env :=
  { openErr := none, tempName := tmp, tempFails := false,
    rand := fun k => some (if k = 0 then iv0 else iv1),
    readBad := none, room := none, createFails := false,
    wipe := WipeFaults.none, removeFails := false }

/-- The container format of the specification (section 6) for name `N`,
content `C` and the two draws `iv0`, `iv1`: marker, two-byte length of the
name unit, the name unit (IV and ciphertext), the content unit (IV and
ciphertext). -/
def specContainer (e : Encoder) (iv0 iv1 N C : Bytes) : Bytes :=
  (lePut 8 MARKER ++ lePut 2 (16 + N.length)) ++
    ((ivOf iv0 ++ xorKeyStream (e.stream (ivOf iv0)) 0 N) ++
      (ivOf iv1 ++ xorKeyStream (e.stream (ivOf iv1)) 0 C))

/-! ## Sequences of setter calls -/

/-- One call of a password setter with what its environment does. -/
inductive SetOp
  | fake (salt : Nat) (upd : Option GoError) (opt : List String)
  | real (salt : Nat) (upd : Option GoError) (opt : List String)

def SetOp.run (L : Lib) (U : Unicode) (s : Storage) : SetOp → Storage
  | SetOp.fake salt upd opt => (setFakePass L salt upd s opt).2
  | SetOp.real salt upd opt => (setRealPass L U salt upd s opt).2

def runOps (L : Lib) (U : Unicode) (s : Storage) (ops : List SetOp) : Storage :=
  ops.foldl (SetOp.run L U) s

/-- What is assumed of bcrypt: a generated hash has sixty bytes, the zero
array verifies nothing, and a generated hash verifies exactly the secrets
with the same `key` as the hashed one, whatever the salt (`key` is the
identity for an ideal bcrypt). -/
structure Lib.Sound (L : Lib) (key : String → Bytes) : Prop where
  gen_length : ∀ salt raw h, L.generate salt raw = some h → h.length = 60
  zero_rejects : ∀ raw, L.compare Hash.zero raw = false
  gen_verifies : ∀ salt raw h, L.generate salt raw = some h →
    ∀ x, L.compare h x = true ↔ key x = key raw

/-- The three classes tested by `setRealPass` are pairwise disjoint, as the
general categories Lu, Ll and N are. -/
structure Unicode.Disjoint (U : Unicode) : Prop where
  upper_lower : ∀ c, U.IsUpper c = true → U.IsLower c = false
  upper_number : ∀ c, U.IsUpper c = true → U.IsNumber c = false
  lower_number : ∀ c, U.IsLower c = true → U.IsNumber c = false

/-- A hash is either the zero array or verifies exactly one class of
secrets. -/
def Hash.Settled (L : Lib) (key : String → Bytes) (h : Hash) : Prop :=
  (∀ x, L.compare h x = false) ∨ ∃ raw, ∀ x, L.compare h x = true ↔ key x = key raw

/-- The invariant of the password record kept by the setters. -/
structure Storage.Good (L : Lib) (key : String → Bytes) (s : Storage) : Prop where
  fake_length : s.pass.Fake.length = 60
  real_length : s.pass.Real.length = 60
  fake_settled : Hash.Settled L key s.pass.Fake
  real_settled : Hash.Settled L key s.pass.Real
  apart : ∀ c, ¬ (Hash.Compare L s.pass.Fake c = true ∧ Hash.Compare L s.pass.Real c = true)

/-- The complexity policy `setRealPass` enforces, as a property of the
text: at least six characters, one of them of class `unicode.IsUpper`, one of
class `unicode.IsLower`, one of class `unicode.IsNumber`.  The last class is
the Unicode category N: it holds of the digits and also of characters that
are no digit, such as `½`, `²` or `Ⅷ`. -/
def NumberPolicy (U : Unicode) (pass : String) : Prop :=
  6 ≤ pass.length ∧ (∃ c ∈ pass.data, U.IsUpper c = true) ∧
    (∃ c ∈ pass.data, U.IsLower c = true) ∧ (∃ c ∈ pass.data, U.IsNumber c = true)

/-- A decimal digit, `0` to `9`. -/
def isDecimalDigit (c : Char) : Bool :=
  decide (0x30 ≤ c.toNat) && decide (c.toNat ≤ 0x39)

/-- The complexity policy as the specification words it: length at least
six, an upper-case letter, a lower-case letter and a digit. -/
def DigitPolicy (U : Unicode) (pass : String) : Prop :=
  6 ≤ pass.length ∧ (∃ c ∈ pass.data, U.IsUpper c = true) ∧
    (∃ c ∈ pass.data, U.IsLower c = true) ∧ (∃ c ∈ pass.data, isDecimalDigit c = true)

/-! ## Instances of the library parameters

Used to evaluate the embedding on concrete inputs. -/

namespace MD5

/-! The MD5 digest of RFC 1321, which `md5.Sum` computes. -/

def S : List Nat :=
  [7, 12, 17, 22, 7, 12, 17, 22, 7, 12, 17, 22, 7, 12, 17, 22,
   5, 9, 14, 20, 5, 9, 14, 20, 5, 9, 14, 20, 5, 9, 14, 20,
   4, 11, 16, 23, 4, 11, 16, 23, 4, 11, 16, 23, 4, 11, 16, 23,
   6, 10, 15, 21, 6, 10, 15, 21, 6, 10, 15, 21, 6, 10, 15, 21]

def K : List Nat :=
  [0xd76aa478, 0xe8c7b756, 0x242070db, 0xc1bdceee, 0xf57c0faf, 0x4787c62a, 0xa8304613, 0xfd469501,
   0x698098d8, 0x8b44f7af, 0xffff5bb1, 0x895cd7be, 0x6b901122, 0xfd987193, 0xa679438e, 0x49b40821,
   0xf61e2562, 0xc040b340, 0x265e5a51, 0xe9b6c7aa, 0xd62f105d, 0x02441453, 0xd8a1e681, 0xe7d3fbc8,
   0x21e1cde6, 0xc33707d6, 0xf4d50d87, 0x455a14ed, 0xa9e3e905, 0xfcefa3f8, 0x676f02d9, 0x8d2a4c8a,
   0xfffa3942, 0x8771f681, 0x6d9d6122, 0xfde5380c, 0xa4beea44, 0x4bdecfa9, 0xf6bb4b60, 0xbebfbc70,
   0x289b7ec6, 0xeaa127fa, 0xd4ef3085, 0x04881d05, 0xd9d4d039, 0xe6db99e5, 0x1fa27cf8, 0xc4ac5665,
   0xf4292244, 0x432aff97, 0xab9423a7, 0xfc93a039, 0x655b59c3, 0x8f0ccc92, 0xffeff47d, 0x85845dd1,
   0x6fa87e4f, 0xfe2ce6e0, 0xa3014314, 0x4e0811a1, 0xf7537e82, 0xbd3af235, 0x2ad7d2bb, 0xeb86d391]

def rotl (x c : Nat) : Nat :=
  ((x <<< c) ||| (x >>> (32 - c))) % 2 ^ 32

def not32 (x : Nat) : Nat := x ^^^ 0xffffffff

structure St where
  a : Nat
  b : Nat
  c : Nat
  d : Nat

def step (M : List Nat) (s : St) (i : Nat) : St :=
  let f :=
    if i < 16 then (s.b &&& s.c) ||| (not32 s.b &&& s.d)
    else if i < 32 then (s.d &&& s.b) ||| (not32 s.d &&& s.c)
    else if i < 48 then s.b ^^^ s.c ^^^ s.d
    else s.c ^^^ (s.b ||| not32 s.d)
  let g :=
    if i < 16 then i
    else if i < 32 then (5 * i + 1) % 16
    else if i < 48 then (3 * i + 5) % 16
    else (7 * i) % 16
  let x := (f + s.a + K.getD i 0 + M.getD g 0) % 2 ^ 32
  { a := s.d, b := (s.b + rotl x (S.getD i 0)) % 2 ^ 32, c := s.b, d := s.c }

def words : Nat → List Nat → List Nat
  | 0, _ => []
  | n + 1, bs => leValue (bs.take 4) :: words n (bs.drop 4)

def block (s : St) (bs : List Nat) : St :=
  let t := (List.range 64).foldl (step (words 16 bs)) s
  { a := (s.a + t.a) % 2 ^ 32, b := (s.b + t.b) % 2 ^ 32,
    c := (s.c + t.c) % 2 ^ 32, d := (s.d + t.d) % 2 ^ 32 }

def pad (msg : List Nat) : List Nat :=
  msg ++ [0x80] ++ List.replicate ((119 - msg.length % 64) % 64) 0 ++ lePut 8 (8 * msg.length)

def blocks (s : St) : Nat → List Nat → St
  | 0, _ => s
  | n + 1, bs => blocks (block s (bs.take 64)) n (bs.drop 64)

def sum (msg : List Nat) : List Nat :=
  let p := pad msg
  let s := blocks { a := 0x67452301, b := 0xefcdab89, c := 0x98badcfe, d := 0x10325476 }
    (p.length / 64) p
  lePut 4 s.a ++ lePut 4 s.b ++ lePut 4 s.c ++ lePut 4 s.d

end MD5

/-- The bytes `[]byte(s)` of a string. -/
def bytesOf (s : String) : Bytes :=
  s.data.flatMap fun c => (String.utf8EncodeChar c).map UInt8.toNat

/-- A sixty-byte verifier standing in for a bcrypt hash: a tag byte and the
first 59 bytes of the secret. -/
def refHash (raw : String) : Hash :=
  36 :: (bytesOf raw ++ List.replicate 59 0).take 59

/-- A library instance: the stand-in verifier for bcrypt, MD5 itself for
`md5.Sum`. -/
def refLib : Lib :=
  { generate := fun _ raw => some (refHash raw),
    compare := fun h raw => decide (h = refHash raw),
    md5Sum := fun s => MD5.sum (bytesOf s) }

/-- The Unicode tests restricted to ASCII. -/
def asciiUnicode : Unicode :=
  { IsUpper := Char.isUpper, IsLower := Char.isLower, IsNumber := Char.isDigit }

/-- The tests of package `unicode` on the Latin-1 range U+0000 to U+00FF,
as the table `properties` of the package classes it: upper-case letters `A`
to `Z`, `À` to `Ö`, `Ø` to `Þ`; lower-case letters `a` to `z`, `µ`, `ß` to
`ö`, `ø` to `ÿ`; numbers `0` to `9`, `²`, `³`, `¹`, `¼`, `½`, `¾`.  A
character beyond U+00FF, for which the package consults its range tables, is
put in none of the three classes. -/
def latin1Unicode : Unicode :=
  { IsUpper := fun c =>
      (decide (0x41 ≤ c.toNat) && decide (c.toNat ≤ 0x5A)) ||
      (decide (0xC0 ≤ c.toNat) && decide (c.toNat ≤ 0xD6)) ||
      (decide (0xD8 ≤ c.toNat) && decide (c.toNat ≤ 0xDE)),
    IsLower := fun c =>
      (decide (0x61 ≤ c.toNat) && decide (c.toNat ≤ 0x7A)) ||
      decide (c.toNat = 0xB5) ||
      (decide (0xDF ≤ c.toNat) && decide (c.toNat ≤ 0xF6)) ||
      (decide (0xF8 ≤ c.toNat) && decide (c.toNat ≤ 0xFF)),
    IsNumber := fun c =>
      (decide (0x30 ≤ c.toNat) && decide (c.toNat ≤ 0x39)) ||
      decide (c.toNat = 0xB2) || decide (c.toNat = 0xB3) || decide (c.toNat = 0xB9) ||
      (decide (0xBC ≤ c.toNat) && decide (c.toNat ≤ 0xBE)) }

/-- An encoder with a stand-in key stream. -/
def refEncoder : Encoder :=
  { token := List.replicate 16 0,
    stream := fun iv i => (iv.getD (i % 16) 0 + 7 * i + 1) % 256 }

/-- A container whose length field is 16: marker, `L = 16`, the sixteen
bytes of the name unit (an IV and no ciphertext), then a content unit of an
IV and one ciphertext byte. -/
def shortNameContainer : Bytes :=
  (lePut 8 MARKER ++ lePut 2 16) ++
    ([1, 2, 3, 4, 5, 6, 7, 8, 9, 10, 11, 12, 13, 14, 15, 16] ++
      ([16, 15, 14, 13, 12, 11, 10, 9, 8, 7, 6, 5, 4, 3, 2, 1] ++ [200]))

/-- A directory holding one file. -/
def oneFile (name content : Bytes) : FS :=
  FS.set (fun _ => none) name (some content)

/-- The store after onboarding with Fake `letmein1` and Real `Passw0rd1`. -/
def credStore : Storage :=
  runOps refLib asciiUnicode Storage.fresh
    [SetOp.fake 0 none ["letmein1"], SetOp.real 0 none ["Passw0rd1"]]

/-- The store `credStore` after a successful login. -/
def loggedStore : Storage :=
  (credStore.Login refLib "Passw0rd1").st

/-! ## Theorems: credential store -/

theorem wrapInt_small (x : Int) (h0 : -(2 ^ 63) ≤ x) (h1 : x < 2 ^ 63) : wrapInt x = x := by
  unfold wrapInt
  have h : (x + 2 ^ 63) % 2 ^ 64 = x + 2 ^ 63 :=
    Int.emod_eq_of_lt (by omega) (by omega)
  omega

theorem Login_duress (L : Lib) (s : Storage) (c : String)
    (h : Hash.Compare L s.pass.Fake c = true) :
    s.Login L c = { ok := false, st := s, kills := 1 } := by
  simp [Storage.Login, h]

theorem Login_real (L : Lib) (s : Storage) (c : String)
    (hf : Hash.Compare L s.pass.Fake c = false) (hr : Hash.Compare L s.pass.Real c = true) :
    s.Login L c = { ok := true, st := { s with token := L.md5Sum c }, kills := 0 } := by
  simp [Storage.Login, hf, hr]

theorem Login_miss (L : Lib) (s : Storage) (c : String)
    (hf : Hash.Compare L s.pass.Fake c = false) (hr : Hash.Compare L s.pass.Real c = false) :
    s.Login L c =
      { ok := false, st := { s with tries := wrapInt (s.tries + 1) },
        kills := if wrapInt (s.tries + 1) ≥ max_tries then 1 else 0 } := by
  by_cases h : wrapInt (s.tries + 1) ≥ max_tries <;> simp [Storage.Login, hf, hr, h]

theorem Login_pass (L : Lib) (s : Storage) (c : String) : (s.Login L c).st.pass = s.pass := by
  unfold Storage.Login
  split
  · rfl
  · split
    · rfl
    · simp only []
      split <;> rfl

theorem Login_path_duress (L : Lib) (s : Storage) (c : String)
    (h : s.path L c = LoginPath.duress) : Hash.Compare L s.pass.Fake c = true := by
  by_cases hf : Hash.Compare L s.pass.Fake c = true
  · exact hf
  · by_cases hr : Hash.Compare L s.pass.Real c = true
    · simp [Storage.path, hf, hr] at h
    · by_cases ht : wrapInt (s.tries + 1) ≥ max_tries <;>
        simp [Storage.path, hf, hr, ht] at h

theorem Login_path_lockout (L : Lib) (s : Storage) (c : String)
    (h : s.path L c = LoginPath.lockout) :
    Hash.Compare L s.pass.Fake c = false ∧ Hash.Compare L s.pass.Real c = false ∧
      wrapInt (s.tries + 1) ≥ max_tries := by
  unfold Storage.path at h
  by_cases hf : Hash.Compare L s.pass.Fake c = true
  · simp [hf] at h
  · by_cases hr : Hash.Compare L s.pass.Real c = true
    · simp [hf, hr] at h
    · by_cases ht : wrapInt (s.tries + 1) ≥ max_tries
      · simp only [Bool.not_eq_true] at hf hr
        exact ⟨hf, hr, ht⟩
      · simp [hf, hr, ht] at h

theorem LoginAll_real (L : Lib) (cs : List String) :
    ∀ s : Storage,
      (∀ c ∈ cs, Hash.Compare L s.pass.Fake c = false ∧ Hash.Compare L s.pass.Real c = true) →
      (s.LoginAll L cs).1.pass = s.pass ∧ (s.LoginAll L cs).1.tries = s.tries ∧
        (s.LoginAll L cs).2 = 0 := by
  induction cs with
  | nil => intro s _; simp [Storage.LoginAll]
  | cons c cs ih =>
    intro s h
    have hc := h c (List.mem_cons_self c cs)
    have e := Login_real L s c hc.1 hc.2
    have ih1 := ih (s.Login L c).st (by
      intro d hd
      rw [e]
      exact h d (List.mem_cons_of_mem c hd))
    simp only [Storage.LoginAll]
    rw [e] at ih1 ⊢
    simpa using ih1

/-- C5: from a store with no failed attempt, where `w` verifies against
neither hash, `f` verifies against Fake, `r` verifies against Real and not
against Fake (in particular when Real verifies exactly `r` and Fake exactly
`f`), the calls Login(w), Login(w), Login(f), Login(r) return false, false,
false, true; `Kill` is invoked by neither of the first two, once by the
third whatever the tries counter holds, and not by the fourth; afterwards
the token is the MD5 digest of `r`, which is non-zero as soon as that digest
is. -/
theorem login_sequence (L : Lib) (s : Storage) (r f w : String)
    (ht : s.tries = 0)
    (hfw : Hash.Compare L s.pass.Fake w = false)
    (hrw : Hash.Compare L s.pass.Real w = false)
    (hff : Hash.Compare L s.pass.Fake f = true)
    (hfr : Hash.Compare L s.pass.Fake r = false)
    (hrr : Hash.Compare L s.pass.Real r = true)
    (hd : L.md5Sum r ≠ zeroToken) :
    let r1 := s.Login L w
    let r2 := r1.st.Login L w
    let r3 := r2.st.Login L f
    let r4 := r3.st.Login L r
    (r1.ok = false ∧ r1.kills = 0) ∧ (r2.ok = false ∧ r2.kills = 0) ∧
    (r3.ok = false ∧ r3.kills = 1 ∧
      ∀ t : Int, (Storage.Login L { r2.st with tries := t } f).kills = 1) ∧
    (r4.ok = true ∧ r4.kills = 0 ∧ r4.st.token = L.md5Sum r ∧ r4.st.token ≠ zeroToken ∧
      r4.st.IsLogged = true) := by
  intro r1 r2 r3 r4
  have e1 : r1 = { ok := false, st := { s with tries := 1 }, kills := 0 } := by
    have e := Login_miss L s w hfw hrw
    rw [ht] at e
    simpa [wrapInt, max_tries] using e
  have e2 : r2 = { ok := false, st := { s with tries := 2 }, kills := 0 } := by
    show r1.st.Login L w = _
    rw [e1]
    have e := Login_miss L { s with tries := 1 } w hfw hrw
    simpa [wrapInt, max_tries] using e
  have e3 : r3 = { ok := false, st := { s with tries := 2 }, kills := 1 } := by
    show r2.st.Login L f = _
    rw [e2]
    exact Login_duress L { s with tries := 2 } f hff
  have e4 : r4 = { ok := true, st := { s with tries := 2, token := L.md5Sum r }, kills := 0 } := by
    show r3.st.Login L r = _
    rw [e3]
    exact Login_real L { s with tries := 2 } r hfr hrr
  refine ⟨by simp [e1], by simp [e2], ⟨by simp [e3], by simp [e3], ?_⟩, ?_⟩
  · intro t
    rw [Login_duress L _ f (by rw [e2]; exact hff)]
  · simp [e4, Storage.IsLogged, hd]

set_option maxRecDepth 100000 in
theorem login_sequence_witness :
    (((((credStore.Login refLib "wrong").st.Login refLib "wrong").st.Login refLib
        "letmein1").st.Login refLib "Passw0rd1").ok = true) ∧
    (((credStore.Login refLib "wrong").st.Login refLib "wrong").st.Login refLib
        "letmein1").kills = 1 ∧
    ((((credStore.Login refLib "wrong").st.Login refLib "wrong").st.Login refLib
        "letmein1").st.Login refLib "Passw0rd1").st.token =
      [197, 12, 147, 59, 156, 102, 106, 155, 32, 1, 112, 161, 151, 30, 197, 171] := by
  have h := login_sequence refLib credStore "Passw0rd1" "letmein1" "wrong"
    (by decide) (by decide) (by decide) (by decide) (by decide) (by decide) (by decide)
  exact ⟨h.2.2.2.1, h.2.2.1.2.1, h.2.2.2.2.2.1.trans (by decide)⟩

/-- C6: from a store with no failed attempt, three Login calls whose
candidates verify against neither hash all return false, each adds one to
the tries counter, and `Kill` is invoked by the third only; successful
real-password logins made in between leave the counter as it is and do not
invoke `Kill`. -/
theorem three_misses_destroy_on_third (L : Lib) (s : Storage) (w1 w2 w3 : String)
    (rs1 rs2 : List String) (ht : s.tries = 0)
    (h1 : Hash.Compare L s.pass.Fake w1 = false ∧ Hash.Compare L s.pass.Real w1 = false)
    (h2 : Hash.Compare L s.pass.Fake w2 = false ∧ Hash.Compare L s.pass.Real w2 = false)
    (h3 : Hash.Compare L s.pass.Fake w3 = false ∧ Hash.Compare L s.pass.Real w3 = false)
    (hrs1 : ∀ c ∈ rs1,
      Hash.Compare L s.pass.Fake c = false ∧ Hash.Compare L s.pass.Real c = true)
    (hrs2 : ∀ c ∈ rs2,
      Hash.Compare L s.pass.Fake c = false ∧ Hash.Compare L s.pass.Real c = true) :
    let r1 := s.Login L w1
    let m1 := r1.st.LoginAll L rs1
    let r2 := m1.1.Login L w2
    let m2 := r2.st.LoginAll L rs2
    let r3 := m2.1.Login L w3
    (r1.ok = false ∧ r2.ok = false ∧ r3.ok = false) ∧
    (r1.st.tries = s.tries + 1 ∧ r2.st.tries = m1.1.tries + 1 ∧
      r3.st.tries = m2.1.tries + 1 ∧ r3.st.tries = 3) ∧
    (m1.1.tries = r1.st.tries ∧ m1.2 = 0 ∧ m2.1.tries = r2.st.tries ∧ m2.2 = 0) ∧
    (r1.kills = 0 ∧ r2.kills = 0 ∧ r3.kills = 1) := by
  intro r1 m1 r2 m2 r3
  have e1 : r1 = { ok := false, st := { s with tries := 1 }, kills := 0 } := by
    have e := Login_miss L s w1 h1.1 h1.2
    rw [ht] at e
    simpa [wrapInt, max_tries] using e
  have a1 := LoginAll_real L rs1 r1.st (by rw [e1]; exact hrs1)
  have p1 : m1.1.pass = s.pass := by rw [a1.1, e1]
  have t1 : m1.1.tries = 1 := by rw [a1.2.1, e1]
  have e2 : r2 = { ok := false, st := { m1.1 with tries := 2 }, kills := 0 } := by
    have e := Login_miss L m1.1 w2 (by rw [p1]; exact h2.1) (by rw [p1]; exact h2.2)
    rw [t1] at e
    simpa [wrapInt, max_tries] using e
  have a2 := LoginAll_real L rs2 r2.st (by rw [e2]; simpa [p1] using hrs2)
  have p2 : m2.1.pass = s.pass := by rw [a2.1, e2]; exact p1
  have t2 : m2.1.tries = 2 := by rw [a2.2.1, e2]
  have e3 : r3 = { ok := false, st := { m2.1 with tries := 3 }, kills := 1 } := by
    have e := Login_miss L m2.1 w3 (by rw [p2]; exact h3.1) (by rw [p2]; exact h3.2)
    rw [t2] at e
    simpa [wrapInt, max_tries] using e
  refine ⟨⟨by simp [e1], by simp [e2], by simp [e3]⟩, ⟨by simp [e1, ht], by simp [e2, t1],
    by simp [e3, t2], by simp [e3]⟩, ⟨a1.2.1, a1.2.2, a2.2.1, a2.2.2⟩,
    by simp [e1], by simp [e2], by simp [e3]⟩

set_option maxRecDepth 100000 in
theorem three_misses_destroy_on_third_witness :
    (Storage.Login refLib
      ((((credStore.Login refLib "wrong").st.LoginAll refLib ["Passw0rd1"]).1.Login refLib
        "guess").st.LoginAll refLib []).1 "again").kills = 1 := by
  have h := three_misses_destroy_on_third refLib credStore "wrong" "guess" "again"
    ["Passw0rd1"] [] (by decide) (by decide) (by decide) (by decide) (by decide) (by decide)
  exact h.2.2.2.2.2

set_option maxRecDepth 100000 in
/-- C9, as stated, fails: the store reached by onboarding and a successful
login has credentials set; a Login with the duress password takes the duress
path and the store is still logged in afterwards. -/
theorem duress_after_login_still_logged :
    loggedStore.Ready = true ∧
    loggedStore.path refLib "letmein1" = LoginPath.duress ∧
    (loggedStore.Login refLib "letmein1").st.Ready = true ∧
    ¬ ((loggedStore.Login refLib "letmein1").st.IsLogged = false) := by
  decide

/-- C9, amended: once credentials are set, a Login call that takes the
duress path or the lockout path invokes `Kill`, returns false and changes
neither the hashes nor the token: `Ready()` is still true and `IsLogged()`
has the value it had before the call, so the state is "CredentialsSet, not
logged in" whenever the store was not logged in before. -/
theorem destroy_paths_keep_session (L : Lib) (s : Storage) (c : String)
    (hready : s.Ready = true)
    (hp : s.path L c = LoginPath.duress ∨ s.path L c = LoginPath.lockout) :
    (s.Login L c).ok = false ∧ (s.Login L c).kills = 1 ∧
    (s.Login L c).st.Ready = true ∧ (s.Login L c).st.token = s.token ∧
    (s.Login L c).st.IsLogged = s.IsLogged ∧
    (s.IsLogged = false → (s.Login L c).st.IsLogged = false) := by
  rcases hp with hp | hp
  · rw [Login_duress L s c (Login_path_duress L s c hp)]
    exact ⟨rfl, rfl, hready, rfl, rfl, fun h => h⟩
  · obtain ⟨hf, hr, ht⟩ := Login_path_lockout L s c hp
    rw [Login_miss L s c hf hr, if_pos ht]
    exact ⟨rfl, rfl, hready, rfl, rfl, fun h => h⟩

set_option maxRecDepth 100000 in
theorem destroy_paths_keep_session_witness :
    credStore.Ready = true ∧ credStore.path refLib "letmein1" = LoginPath.duress ∧
    (credStore.Login refLib "letmein1").st.Ready = true ∧
    (credStore.Login refLib "letmein1").st.IsLogged = false := by
  have h := destroy_paths_keep_session refLib credStore "letmein1" (by decide)
    (Or.inl (by decide))
  exact ⟨by decide, by decide, h.2.2.1, h.2.2.2.2.2 (by decide)⟩

theorem copy_same_length (dst src : Bytes) (h : src.length = dst.length) : copy dst src = src := by
  unfold copy
  rw [← h, List.take_length, List.drop_eq_nil_of_le (le_of_eq h.symm), List.append_nil]

theorem Good_fresh (L : Lib) (key : String → Bytes) (hL : L.Sound key) :
    Storage.Good L key Storage.fresh where
  fake_length := by simp [Storage.fresh, Hash.zero]
  real_length := by simp [Storage.fresh, Hash.zero]
  fake_settled := Or.inl hL.zero_rejects
  real_settled := Or.inl hL.zero_rejects
  apart := by
    intro c h
    have := hL.zero_rejects c
    simp [Storage.fresh, Hash.Compare, this] at h

theorem Settled_apart (L : Lib) (key : String → Bytes) (h other : Hash) (raw : String)
    (hnew : ∀ x, L.compare h x = true ↔ key x = key raw)
    (hother : Hash.Settled L key other) (hrej : L.compare other raw = false) (c : String) :
    ¬ (L.compare h c = true ∧ L.compare other c = true) := by
  rintro ⟨h1, h2⟩
  rcases hother with hz | ⟨p, hp⟩
  · rw [hz c] at h2
    cases h2
  · have k1 := (hnew c).1 h1
    have k2 := (hp c).1 h2
    have : L.compare other raw = true := (hp raw).2 (k1.symm.trans k2)
    rw [hrej] at this
    cases this

theorem Good_setFake (L : Lib) (key : String → Bytes) (hL : L.Sound key) (s : Storage)
    (hs : s.Good L key) (salt : Nat) (upd : Option GoError) (opt : List String) :
    (setFakePass L salt upd s opt).2.Good L key := by
  unfold setFakePass
  split
  · rename_i cand
    by_cases hc : Hash.Compare L s.pass.Real cand = true
    · simpa [hc] using hs
    · simp only [hc, Bool.false_eq_true, if_false]
      unfold Hash.Make
      cases hg : L.generate salt cand with
      | none => simpa using hs
      | some h =>
        have hlen := hL.gen_length salt cand h hg
        have hcopy : copy s.pass.Fake h = h := copy_same_length _ _ (hlen.trans hs.fake_length.symm)
        have hv := hL.gen_verifies salt cand h hg
        simp only [hcopy]
        exact
          { fake_length := hlen
            real_length := hs.real_length
            fake_settled := Or.inr ⟨cand, hv⟩
            real_settled := hs.real_settled
            apart := fun c =>
              Settled_apart L key h s.pass.Real cand hv hs.real_settled
                (by simpa [Hash.Compare] using hc) c }
  · exact hs

theorem Good_setReal (L : Lib) (U : Unicode) (key : String → Bytes) (hL : L.Sound key)
    (s : Storage) (hs : s.Good L key) (salt : Nat) (upd : Option GoError) (opt : List String) :
    (setRealPass L U salt upd s opt).2.Good L key := by
  unfold setRealPass
  split
  · rename_i pass
    by_cases hc : Hash.Compare L s.pass.Fake pass = true
    · simpa [hc] using hs
    · simp only [hc, Bool.false_eq_true, if_false]
      split
      · exact hs
      · split
        · exact hs
        · unfold Hash.Make
          cases hg : L.generate salt pass with
          | none => simpa using hs
          | some h =>
            have hlen := hL.gen_length salt pass h hg
            have hcopy : copy s.pass.Real h = h :=
              copy_same_length _ _ (hlen.trans hs.real_length.symm)
            have hv := hL.gen_verifies salt pass h hg
            simp only [hcopy]
            exact
              { fake_length := hs.fake_length
                real_length := hlen
                fake_settled := hs.fake_settled
                real_settled := Or.inr ⟨pass, hv⟩
                apart := fun c hcc =>
                  Settled_apart L key h s.pass.Fake pass hv hs.fake_settled
                    (by simpa [Hash.Compare] using hc) c ⟨hcc.2, hcc.1⟩ }
  · exact hs

theorem Good_runOps (L : Lib) (U : Unicode) (key : String → Bytes) (hL : L.Sound key)
    (ops : List SetOp) : ∀ s : Storage, s.Good L key → (runOps L U s ops).Good L key := by
  induction ops with
  | nil => intro s hs; exact hs
  | cons op ops ih =>
    intro s hs
    show (runOps L U (SetOp.run L U s op) ops).Good L key
    apply ih
    cases op with
    | fake salt upd opt => exact Good_setFake L key hL s hs salt upd opt
    | real salt upd opt => exact Good_setReal L U key hL s hs salt upd opt

theorem refLib_sound : refLib.Sound refHash where
  gen_length := by
    intro salt raw h hg
    simp only [refLib, Option.some.injEq] at hg
    subst hg
    simp [refHash]
  zero_rejects := by
    intro raw
    simp [refLib, refHash, Hash.zero, List.replicate]
  gen_verifies := by
    intro salt raw h hg x
    simp only [refLib, Option.some.injEq] at hg
    subst hg
    simp only [refLib, decide_eq_true_eq]
    exact eq_comm

/-- C8: starting from the empty password record, after every finite
sequence of SetFake and SetReal calls, whatever each call returns, no
candidate verifies against both the Fake hash and the Real hash; and in the
state reached SetFake rejects every candidate that verifies against Real and
SetReal every candidate that verifies against Fake, leaving the record as it
is.  Bcrypt is assumed to verify by a salt-independent key of the secret. -/
theorem no_common_secret (L : Lib) (U : Unicode) (key : String → Bytes) (hL : L.Sound key)
    (ops : List SetOp) :
    (∀ c, ¬ (Hash.Compare L (runOps L U Storage.fresh ops).pass.Fake c = true ∧
        Hash.Compare L (runOps L U Storage.fresh ops).pass.Real c = true)) ∧
    (∀ salt upd c, Hash.Compare L (runOps L U Storage.fresh ops).pass.Real c = true →
      setFakePass L salt upd (runOps L U Storage.fresh ops) [c] =
        (Reply.Error pass_same, runOps L U Storage.fresh ops)) ∧
    (∀ salt upd c, Hash.Compare L (runOps L U Storage.fresh ops).pass.Fake c = true →
      setRealPass L U salt upd (runOps L U Storage.fresh ops) [c] =
        (Reply.Error pass_same, runOps L U Storage.fresh ops)) := by
  refine ⟨(Good_runOps L U key hL ops Storage.fresh (Good_fresh L key hL)).apart, ?_, ?_⟩
  · intro salt upd c hc
    simp [setFakePass, hc]
  · intro salt upd c hc
    simp [setRealPass, hc]

set_option maxRecDepth 100000 in
theorem no_common_secret_witness :
    ¬ (Hash.Compare refLib credStore.pass.Fake "Passw0rd1" = true ∧
        Hash.Compare refLib credStore.pass.Real "Passw0rd1" = true) ∧
    setFakePass refLib 7 none credStore ["Passw0rd1"] = (Reply.Error pass_same, credStore) ∧
    setRealPass refLib asciiUnicode 7 none credStore ["letmein1"] =
      (Reply.Error pass_same, credStore) := by
  have h := no_common_secret refLib asciiUnicode refHash refLib_sound
    [SetOp.fake 0 none ["letmein1"], SetOp.real 0 none ["Passw0rd1"]]
  exact ⟨h.1 "Passw0rd1", h.2.1 7 none "Passw0rd1" (by decide),
    h.2.2 7 none "letmein1" (by decide)⟩

theorem length_le_utf8ByteSize (s : String) : s.length ≤ s.utf8ByteSize := by
  cases s with
  | mk data =>
    show data.length ≤ String.utf8ByteSize.go data
    induction data with
    | nil => simp [String.utf8ByteSize.go]
    | cons c cs ih =>
      have := Char.utf8Size_pos c
      simp only [String.utf8ByteSize.go, List.length_cons]
      omega

theorem scanStep_fields (U : Unicode) (a : Scan) (c : Char) :
    (scanStep U a c).cnt = a.cnt + 1 ∧
    (scanStep U a c).upp = (a.upp || U.IsUpper c) ∧
    (scanStep U a c).low = (a.low || (!U.IsUpper c && U.IsLower c)) ∧
    (scanStep U a c).num = (a.num || (!U.IsUpper c && !U.IsLower c && U.IsNumber c)) := by
  unfold scanStep
  cases hu : U.IsUpper c <;> cases hl : U.IsLower c <;> cases hn : U.IsNumber c <;> simp

theorem scan_foldl (U : Unicode) (cs : List Char) :
    ∀ a : Scan,
      (cs.foldl (scanStep U) a).cnt = a.cnt + cs.length ∧
      (cs.foldl (scanStep U) a).upp = (a.upp || cs.any U.IsUpper) ∧
      (cs.foldl (scanStep U) a).low =
        (a.low || cs.any fun c => !U.IsUpper c && U.IsLower c) ∧
      (cs.foldl (scanStep U) a).num =
        (a.num || cs.any fun c => !U.IsUpper c && !U.IsLower c && U.IsNumber c) := by
  induction cs with
  | nil => intro a; simp
  | cons c cs ih =>
    intro a
    obtain ⟨h1, h2, h3, h4⟩ := ih (scanStep U a c)
    obtain ⟨k1, k2, k3, k4⟩ := scanStep_fields U a c
    simp only [List.foldl_cons, List.any_cons, List.length_cons]
    rw [h1, h2, h3, h4, k1, k2, k3, k4]
    refine ⟨by omega, ?_, ?_, ?_⟩ <;> simp only [Bool.or_assoc]

theorem scanPass_flags (U : Unicode) (hU : U.Disjoint) (pass : String) :
    (scanPass U pass).cnt = pass.length ∧
    ((scanPass U pass).upp = true ↔ ∃ c ∈ pass.data, U.IsUpper c = true) ∧
    ((scanPass U pass).low = true ↔ ∃ c ∈ pass.data, U.IsLower c = true) ∧
    ((scanPass U pass).num = true ↔ ∃ c ∈ pass.data, U.IsNumber c = true) := by
  obtain ⟨h1, h2, h3, h4⟩ :=
    scan_foldl U pass.data { upp := false, low := false, num := false, cnt := 0 }
  unfold scanPass
  rw [h1, h2, h3, h4]
  refine ⟨by rw [Nat.zero_add]; cases pass; rfl, by simp, ?_, ?_⟩
  · simp only [Bool.false_or, List.any_eq_true, Bool.and_eq_true, Bool.not_eq_true']
    constructor
    · rintro ⟨c, hc, _, hl⟩
      exact ⟨c, hc, hl⟩
    · rintro ⟨c, hc, hl⟩
      refine ⟨c, hc, ?_, hl⟩
      cases hu : U.IsUpper c
      · rfl
      · rw [hU.upper_lower c hu] at hl
        cases hl
  · simp only [Bool.false_or, List.any_eq_true, Bool.and_eq_true, Bool.not_eq_true']
    constructor
    · rintro ⟨c, hc, _, hn⟩
      exact ⟨c, hc, hn⟩
    · rintro ⟨c, hc, hn⟩
      refine ⟨c, hc, ⟨?_, ?_⟩, hn⟩
      · cases hu : U.IsUpper c
        · rfl
        · rw [hU.upper_number c hu] at hn
          cases hn
      · cases hl : U.IsLower c
        · rfl
        · rw [hU.lower_number c hl] at hn
          cases hn

theorem scanPass_policy (U : Unicode) (hU : U.Disjoint) (pass : String) :
    (!(scanPass U pass).upp || !(scanPass U pass).low || !(scanPass U pass).num ||
        decide ((scanPass U pass).cnt < 6)) = false ↔ NumberPolicy U pass := by
  obtain ⟨h1, h2, h3, h4⟩ := scanPass_flags U hU pass
  unfold NumberPolicy
  rw [← h2, ← h3, ← h4, h1]
  simp only [Bool.or_eq_false_iff, Bool.not_eq_false', decide_eq_false_iff_not, not_lt]
  tauto

theorem asciiUnicode_disjoint : asciiUnicode.Disjoint where
  upper_lower := by
    intro c h
    simp only [asciiUnicode, Char.isUpper, Char.isLower, Bool.and_eq_true, decide_eq_true_eq,
      Bool.and_eq_false_imp, decide_eq_false_iff_not] at h ⊢
    intro h1
    have a : c.val.toNat ≤ 90 := h.2
    have b : 97 ≤ c.val.toNat := h1
    omega
  upper_number := by
    intro c h
    simp only [asciiUnicode, Char.isUpper, Char.isDigit, Bool.and_eq_true, decide_eq_true_eq,
      Bool.and_eq_false_imp, decide_eq_false_iff_not] at h ⊢
    intro _ h2
    have a : 65 ≤ c.val.toNat := h.1
    have b : c.val.toNat ≤ 57 := h2
    omega
  lower_number := by
    intro c h
    simp only [asciiUnicode, Char.isLower, Char.isDigit, Bool.and_eq_true, decide_eq_true_eq,
      Bool.and_eq_false_imp, decide_eq_false_iff_not] at h ⊢
    intro _ h2
    have a : 97 ≤ c.val.toNat := h.1
    have b : c.val.toNat ≤ 57 := h2
    omega

theorem latin1Unicode_disjoint : latin1Unicode.Disjoint where
  upper_lower := by
    intro c h
    simp only [latin1Unicode, Bool.or_eq_true, Bool.and_eq_true, decide_eq_true_eq,
      Bool.or_eq_false_iff, Bool.and_eq_false_iff, decide_eq_false_iff_not] at h ⊢
    omega
  upper_number := by
    intro c h
    simp only [latin1Unicode, Bool.or_eq_true, Bool.and_eq_true, decide_eq_true_eq,
      Bool.or_eq_false_iff, Bool.and_eq_false_iff, decide_eq_false_iff_not] at h ⊢
    omega
  lower_number := by
    intro c h
    simp only [latin1Unicode, Bool.or_eq_true, Bool.and_eq_true, decide_eq_true_eq,
      Bool.or_eq_false_iff, Bool.and_eq_false_iff, decide_eq_false_iff_not] at h ⊢
    omega

set_option maxRecDepth 100000 in
/-- C7, as stated, fails: with hashing and persistence succeeding and no
Fake hash set, SetReal on `Abcde½` succeeds and stores the new Real hash,
although the candidate contains no digit: its sixth character `½` (U+00BD)
is a number for `unicode.IsNumber` and is not a digit. -/
theorem setReal_accepts_non_digit :
    refLib.generate 0 "Abcde½" = some (refHash "Abcde½") ∧
    Hash.Compare refLib Storage.fresh.pass.Fake "Abcde½" = false ∧
    setRealPass refLib latin1Unicode 0 none Storage.fresh ["Abcde½"] =
      (Reply.Ok, { Storage.fresh with
        pass := { Fake := Storage.fresh.pass.Fake, Real := refHash "Abcde½" } }) ∧
    (∀ c ∈ "Abcde½".data, isDecimalDigit c = false) ∧
    ¬ DigitPolicy latin1Unicode "Abcde½" := by
  have hd : ∀ c ∈ "Abcde½".data, isDecimalDigit c = false := by decide
  refine ⟨rfl, by decide, ?_, hd, ?_⟩
  · rfl
  · rintro ⟨_, _, _, c, hc, h⟩
    rw [hd c hc] at h
    cases h

/-- C7, amended: when hashing and persistence succeed, SetReal succeeds if
and only if the candidate does not verify against the current Fake hash,
has at least six characters, and contains at least one upper-case letter,
one lower-case letter and one numeric character in the sense of
`unicode.IsNumber` (category N, digit or not).  On success the generated
hash is stored in Real and Fake is kept; in every other case the call fails
and the store is unchanged. -/
theorem setReal_policy (L : Lib) (U : Unicode) (hU : U.Disjoint) (salt : Nat) (s : Storage)
    (pass : String) (h : Hash) (hgen : L.generate salt pass = some h) :
    ((setRealPass L U salt none s [pass]).1 = Reply.Ok ↔
      (Hash.Compare L s.pass.Fake pass = false ∧ NumberPolicy U pass)) ∧
    ((Hash.Compare L s.pass.Fake pass = false ∧ NumberPolicy U pass) →
      (setRealPass L U salt none s [pass]).2 =
        { s with pass := { Fake := s.pass.Fake, Real := copy s.pass.Real h } }) ∧
    (¬ (Hash.Compare L s.pass.Fake pass = false ∧ NumberPolicy U pass) →
      (setRealPass L U salt none s [pass]).1 ≠ Reply.Ok ∧
      (setRealPass L U salt none s [pass]).2 = s) := by
  by_cases hc : Hash.Compare L s.pass.Fake pass = true
  · have e : setRealPass L U salt none s [pass] = (Reply.Error pass_same, s) := by
      simp [setRealPass, hc]
    rw [e]
    simp [hc]
  · simp only [Bool.not_eq_true] at hc
    by_cases hp : NumberPolicy U pass
    · have hb : ¬ pass.utf8ByteSize < 6 := by
        have := length_le_utf8ByteSize pass
        have := hp.1
        omega
      have hq := (scanPass_policy U hU pass).2 hp
      have e : setRealPass L U salt none s [pass] =
          (Reply.Ok, { s with pass := { Fake := s.pass.Fake, Real := copy s.pass.Real h } }) := by
        simp only [setRealPass, hc, hb, hq, Hash.Make, hgen, updateReply, Bool.false_eq_true,
          if_false]
      rw [e]
      simp [hc, hp]
    · have e : setRealPass L U salt none s [pass] = (Reply.Error pass_simple, s) := by
        by_cases hb : pass.utf8ByteSize < 6
        · simp [setRealPass, hc, hb]
        · have hq : (!(scanPass U pass).upp || !(scanPass U pass).low ||
              !(scanPass U pass).num || decide ((scanPass U pass).cnt < 6)) = true := by
            cases hx : (!(scanPass U pass).upp || !(scanPass U pass).low ||
              !(scanPass U pass).num || decide ((scanPass U pass).cnt < 6))
            · exact absurd ((scanPass_policy U hU pass).1 hx) hp
            · rfl
          simp only [setRealPass, hc, hb, hq, Bool.false_eq_true, if_false, if_true]
      rw [e]
      simp [hc, hp]

set_option maxRecDepth 100000 in
theorem setReal_policy_witness :
    (setRealPass refLib latin1Unicode 0 none Storage.fresh ["abc"]).1 ≠ Reply.Ok ∧
    (setRealPass refLib latin1Unicode 0 none Storage.fresh ["Abcdef1"]).1 = Reply.Ok ∧
    (setRealPass refLib latin1Unicode 0 none Storage.fresh ["Abcdef1"]).2.pass.Real =
      refHash "Abcdef1" := by
  have h1 := setReal_policy refLib latin1Unicode latin1Unicode_disjoint 0 Storage.fresh "abc"
    (refHash "abc") rfl
  have h2 := setReal_policy refLib latin1Unicode latin1Unicode_disjoint 0 Storage.fresh "Abcdef1"
    (refHash "Abcdef1") rfl
  have p2 : Hash.Compare refLib Storage.fresh.pass.Fake "Abcdef1" = false ∧
      NumberPolicy latin1Unicode "Abcdef1" :=
    ⟨by decide, by decide, ⟨'A', by decide, by decide⟩, ⟨'b', by decide, by decide⟩,
      ⟨'1', by decide, by decide⟩⟩
  refine ⟨(h1.2.2 ?_).1, h2.1.2 p2, ?_⟩
  · rintro ⟨_, h6, _⟩
    exact absurd h6 (by decide)
  · rw [h2.2.1 p2]
    decide

theorem credStore_pass :
    credStore.pass.Fake = refHash "letmein1" ∧ credStore.pass.Real = refHash "Passw0rd1" := by
  decide

theorem md5_Passw0rd1 :
    refLib.md5Sum "Passw0rd1" =
      [197, 12, 147, 59, 156, 102, 106, 155, 32, 1, 112, 161, 151, 30, 197, 171] := by
  decide

/-! ## Theorems: streams -/

theorem xorKeyStream_length (ks : Nat → Nat) (bs : Bytes) :
    ∀ pos, (xorKeyStream ks pos bs).length = bs.length := by
  induction bs with
  | nil => intro pos; rfl
  | cons b bs ih => intro pos; simp [xorKeyStream, ih]

theorem xorKeyStream_append (ks : Nat → Nat) (a b : Bytes) :
    ∀ pos, xorKeyStream ks pos (a ++ b) =
      xorKeyStream ks pos a ++ xorKeyStream ks (pos + a.length) b := by
  induction a with
  | nil => intro pos; simp [xorKeyStream]
  | cons x a ih =>
    intro pos
    have e := ih (pos + 1)
    rw [show pos + 1 + a.length = pos + (a.length + 1) by omega] at e
    show (x ^^^ ks pos) :: xorKeyStream ks (pos + 1) (a ++ b) =
      (x ^^^ ks pos) :: xorKeyStream ks (pos + 1) a ++ xorKeyStream ks (pos + (a.length + 1)) b
    rw [e]
    rfl

theorem xorKeyStream_twice (ks : Nat → Nat) (bs : Bytes) :
    ∀ pos, xorKeyStream ks pos (xorKeyStream ks pos bs) = bs := by
  induction bs with
  | nil => intro pos; rfl
  | cons b bs ih => intro pos; simp [xorKeyStream, ih, Nat.xor_cancel_right]

theorem Write_nil (w : Writer) : (w.Write []).2 = w := by
  cases w with
  | mk data room => cases room <;> simp [Writer.Write]

theorem Write_Write (w : Writer) (a b : Bytes) :
    ((w.Write a).2.Write b).2 = (w.Write (a ++ b)).2 := by
  cases w with
  | mk data room =>
    cases room with
    | none => simp [Writer.Write]
    | some k =>
      simp only [Writer.Write, List.take_append_eq_append_take, List.length_append,
        List.append_assoc, Writer.mk.injEq, Option.some.injEq, true_and]
      omega

theorem Write_unlimited (data b : Bytes) :
    Writer.Write { data := data, room := none } b = (none, { data := data ++ b, room := none }) :=
  rfl

theorem streamLoop_plain (ks : Nat → Nat) :
    ∀ (fuel : Nat) (rest : Bytes) (bad : Bool) (pos : Nat) (out : Writer),
      rest.length < fuel →
      streamLoop ks fuel pos (Input.plain { rest := rest, bad := bad }) out =
        (if bad then some GoError.other else none, Input.plain { rest := [], bad := bad },
          (out.Write (xorKeyStream ks pos rest)).2) := by
  intro fuel
  induction fuel with
  | zero => intro rest bad pos out h; omega
  | succ f ih =>
    intro rest bad pos out h
    cases rest with
    | nil =>
      cases bad <;> simp [streamLoop, Input.Read, Reader.Read, xorKeyStream, Write_nil]
    | cons b bs =>
      have hlen : (List.drop 1024 (b :: bs)).length < f := by
        simp only [List.length_drop, List.length_cons] at h ⊢
        omega
      have hpos : 0 < (List.take 1024 (b :: bs)).length := by
        simp
      have hrec := ih (List.drop 1024 (b :: bs)) bad
        (pos + (List.take 1024 (b :: bs)).length)
        (out.Write (xorKeyStream ks pos (List.take 1024 (b :: bs)))).2 hlen
      rw [Write_Write, ← xorKeyStream_append, List.take_append_drop] at hrec
      simp only [streamLoop, Input.Read, Reader.Read]
      simp only [show (1024 : Nat) ≠ 0 by decide, if_false, gt_iff_lt, hpos, if_true]
      exact hrec

theorem Input_Read_progress (inp : Input) (h : (inp.Read 1024).2.1 = none) :
    (inp.Read 1024).2.2.base.rest.length < inp.base.rest.length := by
  cases inp with
  | plain r =>
    cases r with
    | mk rest bad =>
      cases rest with
      | nil => simp [Input.Read, Reader.Read] at h
      | cons b bs =>
        simp only [Input.Read, Input.base, Reader.Read, show (1024 : Nat) ≠ 0 by decide,
          if_false, List.length_drop, List.length_cons]
        omega
  | limited l =>
    cases l with
    | mk r N =>
      cases r with
      | mk rest bad =>
        by_cases hN : N ≤ 0
        · simp [Input.Read, LimitedReader.Read, hN] at h
        · have hn1 : (if ((1024 : Nat) : Int) > N then N.toNat else 1024) ≠ 0 := by
            split <;> omega
          cases rest with
          | nil =>
            simp only [Input.Read, LimitedReader.Read, hN, if_false, Reader.Read, hn1] at h
            cases bad <;> simp at h
          | cons b bs =>
            simp only [Input.Read, Input.base, LimitedReader.Read, hN, if_false, Reader.Read, hn1,
              List.length_drop, List.length_cons]
            omega

theorem streamLoop_succ (ks : Nat → Nat) (fuel pos : Nat) (inp : Input) (out : Writer) :
    streamLoop ks (fuel + 1) pos inp out =
      match (inp.Read 1024).2.1 with
      | some GoError.eof =>
        (none, (inp.Read 1024).2.2,
          if (inp.Read 1024).1.length > 0 then
            (out.Write (xorKeyStream ks pos (inp.Read 1024).1)).2 else out)
      | some err =>
        (some err, (inp.Read 1024).2.2,
          if (inp.Read 1024).1.length > 0 then
            (out.Write (xorKeyStream ks pos (inp.Read 1024).1)).2 else out)
      | none =>
        streamLoop ks fuel (pos + (inp.Read 1024).1.length) (inp.Read 1024).2.2
          (if (inp.Read 1024).1.length > 0 then
            (out.Write (xorKeyStream ks pos (inp.Read 1024).1)).2 else out) := by
  rw [streamLoop]

/-- Fuel above the unread length is never exhausted: one more unit of fuel
does not change the result. -/
theorem streamLoop_fuel (ks : Nat → Nat) :
    ∀ (fuel : Nat) (pos : Nat) (inp : Input) (out : Writer),
      inp.base.rest.length < fuel →
      streamLoop ks (fuel + 1) pos inp out = streamLoop ks fuel pos inp out := by
  intro fuel
  induction fuel with
  | zero => intro pos inp out h; omega
  | succ f ih =>
    intro pos inp out h
    rw [streamLoop_succ ks (f + 1) pos inp out, streamLoop_succ ks f pos inp out]
    cases hx : (inp.Read 1024).2.1 with
    | some err => cases err <;> rfl
    | none =>
      have hp := Input_Read_progress inp hx
      exact ih _ _ _ (by omega)

theorem LimitedReader_Read_pos (b : Nat) (bs : Bytes) (bad : Bool) (n : Nat) (hpos : 0 < n) :
    LimitedReader.Read { R := { rest := b :: bs, bad := bad }, N := (n : Int) } 1024 =
      ((b :: bs).take (min 1024 n), none,
        { R := { rest := (b :: bs).drop (min 1024 n), bad := bad },
          N := ((n : Int) - (((b :: bs).take (min 1024 n)).length : Int)) }) := by
  have hN : ¬ ((n : Int) ≤ 0) := by omega
  have hn1 : (if ((1024 : Nat) : Int) > (n : Int) then (n : Int).toNat else 1024) = min 1024 n := by
    split <;> omega
  have hne : min 1024 n ≠ 0 := by omega
  unfold LimitedReader.Read
  rw [if_neg hN]
  simp only []
  rw [hn1]
  unfold Reader.Read
  rw [if_neg hne]

theorem streamLoop_limited (ks : Nat → Nat) :
    ∀ (fuel : Nat) (rest : Bytes) (bad : Bool) (n pos : Nat) (out : Writer),
      rest.length < fuel → n ≤ rest.length →
      streamLoop ks fuel pos (Input.limited { R := { rest := rest, bad := bad }, N := (n : Int) })
          out =
        (none, Input.limited { R := { rest := rest.drop n, bad := bad }, N := 0 },
          (out.Write (xorKeyStream ks pos (rest.take n))).2) := by
  intro fuel
  induction fuel with
  | zero => intro rest bad n pos out h; omega
  | succ f ih =>
    intro rest bad n pos out h hn
    rcases Nat.eq_zero_or_pos n with h0 | hpos
    · subst h0
      simp [streamLoop, Input.Read, LimitedReader.Read, xorKeyStream, Write_nil]
    · cases rest with
      | nil => simp at hn; omega
      | cons b bs =>
        have hk : ((b :: bs).take (min 1024 n)).length = min 1024 n := by
          rw [List.length_take]
          omega
        have hpos1 : 0 < ((b :: bs).take (min 1024 n)).length := by omega
        have hcast : ((n : Int) - (((b :: bs).take (min 1024 n)).length : Int)) =
            ((n - min 1024 n : Nat) : Int) := by
          rw [hk]
          omega
        have hrec := ih ((b :: bs).drop (min 1024 n)) bad (n - min 1024 n)
          (pos + ((b :: bs).take (min 1024 n)).length)
          (out.Write (xorKeyStream ks pos ((b :: bs).take (min 1024 n)))).2
          (by simp only [List.length_drop, List.length_cons] at h ⊢; omega)
          (by simp only [List.length_drop]; omega)
        rw [Write_Write, ← xorKeyStream_append, List.drop_drop] at hrec
        have e1 : min 1024 n + (n - min 1024 n) = n := by omega
        have e2 : (b :: bs).take (min 1024 n) ++ ((b :: bs).drop (min 1024 n)).take (n - min 1024 n) =
            (b :: bs).take n := by
          have := List.take_add (b :: bs) (min 1024 n) (n - min 1024 n)
          rw [e1] at this
          exact this.symm
        rw [e1, e2] at hrec
        simp only [streamLoop, Input.Read]
        rw [LimitedReader_Read_pos b bs bad n hpos]
        simp only [gt_iff_lt, hpos1, if_true, hcast]
        exact hrec

theorem ivOf_length (got : Bytes) : (ivOf got).length = 16 := by
  simp only [ivOf, copy, List.length_append, List.length_take, List.length_drop,
    List.length_replicate]
  omega

theorem ivOf_id (iv : Bytes) (h : iv.length = 16) : ivOf iv = iv :=
  copy_same_length _ _ (by simp [h])

theorem Reader_Read_some (rest : Bytes) (bad : Bool) (n : Nat) (hn : n ≠ 0) (hr : rest ≠ []) :
    Reader.Read { rest := rest, bad := bad } n =
      (rest.take n, none, { rest := rest.drop n, bad := bad }) := by
  cases rest with
  | nil => exact absurd rfl hr
  | cons b bs =>
    unfold Reader.Read
    rw [if_neg hn]

theorem Reader_Read_iv (iv body : Bytes) (bad : Bool) (h : iv.length = 16) :
    Reader.Read { rest := iv ++ body, bad := bad } 16 =
      (iv, none, { rest := body, bad := bad }) := by
  rw [Reader_Read_some _ _ 16 (by decide) (by
    intro h0
    have := congrArg List.length h0
    simp [h] at this)]
  rw [← h, List.take_left, List.drop_left]

theorem encode_spec (e : Encoder) (got rest : Bytes) (bad : Bool) (out : Writer)
    (hroom : (out.Write (ivOf got)).1 = none) :
    e.encode (some got) { rest := rest, bad := bad } out =
      (if bad then some GoError.other else none, { rest := [], bad := bad },
        (out.Write (ivOf got ++ xorKeyStream (e.stream (ivOf got)) 0 rest)).2) := by
  unfold Encoder.encode
  simp only []
  cases hw : out.Write (ivOf got) with
  | mk err out1 =>
    rw [hw] at hroom
    simp only at hroom
    subst hroom
    simp only []
    rw [streamLoop_plain _ _ _ _ _ _ (Nat.lt_succ_self _)]
    have h1 : out1 = (out.Write (ivOf got)).2 := by rw [hw]
    simp only [Input.base]
    rw [h1, Write_Write]

theorem decode_unbounded (e : Encoder) (size : Int) (iv body : Bytes) (bad : Bool)
    (out : Writer) (hiv : iv.length = 16) (hs : size ≤ 0) :
    e.decode size { rest := iv ++ body, bad := bad } out =
      (if bad then some GoError.other else none, { rest := [], bad := bad },
        (out.Write (xorKeyStream (e.stream iv) 0 body)).2) := by
  unfold Encoder.decode
  simp only [Encoder.BlockSize]
  rw [Reader_Read_iv iv body bad hiv]
  simp only [ivOf_id iv hiv, if_neg (not_lt.mpr hs)]
  rw [streamLoop_plain _ _ _ _ _ _ (Nat.lt_succ_self _)]
  rfl

theorem decode_bounded (e : Encoder) (n : Nat) (iv body : Bytes) (bad : Bool) (out : Writer)
    (hiv : iv.length = 16) (hn : 0 < n) (hle : n ≤ body.length) :
    e.decode (n : Int) { rest := iv ++ body, bad := bad } out =
      (none, { rest := body.drop n, bad := bad },
        (out.Write (xorKeyStream (e.stream iv) 0 (body.take n))).2) := by
  unfold Encoder.decode
  simp only [Encoder.BlockSize]
  rw [Reader_Read_iv iv body bad hiv]
  have hpos : (n : Int) > 0 := by omega
  simp only [ivOf_id iv hiv, if_pos hpos]
  rw [streamLoop_limited _ _ _ _ _ _ _ (Nat.lt_succ_self _) hle]
  rfl

theorem wipeLoop_quiet (size : Nat) :
    ∀ (n i pos : Nat) (data : Bytes), (wipeLoop WipeFaults.none size n i pos data).1 = none := by
  intro n
  induction n with
  | zero => intro i pos data; rfl
  | succ n ih =>
    intro i pos data
    simp only [wipeLoop, WipeFaults.none, Bool.false_eq_true, if_false]
    exact ih _ _ _

theorem WipeFile_quiet (data : Bytes) : (WipeFile WipeFaults.none data).1 = none := by
  unfold WipeFile
  simp only [WipeFaults.none, Bool.false_eq_true, if_false]
  have h := wipeLoop_quiet data.length (wipeParts data.length) 0 0 data
  simp only [WipeFaults.none] at h
  rw [h]

/-! ## Theorems: header and name decode -/

theorem lePut_length (n : Nat) : ∀ v, (lePut n v).length = n := by
  induction n with
  | zero => intro v; rfl
  | succ n ih => intro v; simp [lePut, ih]

theorem leValue_lePut (n : Nat) : ∀ v, leValue (lePut n v) = v % 256 ^ n := by
  induction n with
  | zero => intro v; simp [lePut, leValue, Nat.mod_one]
  | succ n ih =>
    intro v
    simp only [lePut, leValue, ih]
    rw [pow_succ, Nat.mul_comm (256 ^ n) 256, Nat.mod_mul]

theorem MARKER_roundtrip : leValue (lePut 8 MARKER) = MARKER := by
  decide

theorem nameBound_above (e : Encoder) (L : Nat) (h16 : 16 ≤ L) (hL : L < 65536) :
    nameBound e L = ((L - 16 : Nat) : Int) := by
  unfold nameBound toInt64 Encoder.BlockSize
  have h1 : L % 2 ^ 64 = L := Nat.mod_eq_of_lt (by omega)
  have h2 : (L + 2 ^ 64 - 16) % 2 ^ 64 = L - 16 := by omega
  rw [h1, h2, if_pos (by omega)]

theorem nameBound_below (e : Encoder) (L : Nat) (h16 : L ≤ 16) : nameBound e L ≤ 0 := by
  unfold nameBound toInt64 Encoder.BlockSize
  have h1 : L % 2 ^ 64 = L := Nat.mod_eq_of_lt (by omega)
  rw [h1]
  rcases Nat.lt_or_ge L 16 with h | h
  · have h2 : (L + 2 ^ 64 - 16) % 2 ^ 64 = L + 2 ^ 64 - 16 := Nat.mod_eq_of_lt (by omega)
    rw [h2, if_neg (by omega)]
    omega
  · have h2 : (L + 2 ^ 64 - 16) % 2 ^ 64 = 0 := by omega
    rw [h2]
    simp

theorem ReadFull_enough (rest : Bytes) (bad : Bool) (n : Nat) (h : n ≤ rest.length) :
    Reader.ReadFull { rest := rest, bad := bad } n =
      (rest.take n, none, { rest := rest.drop n, bad := bad }) := by
  unfold Reader.ReadFull
  rw [if_pos h]

theorem readName_spec (e : Encoder) (content : Bytes) (bad : Bool) (L : Nat)
    (hlen : 10 + L ≤ content.length) (hm : leValue (content.take 8) = MARKER)
    (hsize : leValue ((content.take 10).drop 8) = L) (h16 : 16 < L) (hL : L < 65536) :
    e.readName { rest := content, bad := bad } =
      NameStep.go { rest := content.drop (10 + L), bad := bad }
        (xorKeyStream (e.stream ((content.drop 10).take 16)) 0
          ((content.drop 26).take (L - 16))) := by
  have hsplit : content.drop 10 = (content.drop 10).take 16 ++ content.drop 26 := by
    have := (List.take_append_drop 16 (content.drop 10)).symm
    rwa [List.drop_drop] at this
  have hiv : ((content.drop 10).take 16).length = 16 := by
    rw [List.length_take, List.length_drop]
    omega
  have hd := decode_bounded e (L - 16) ((content.drop 10).take 16) (content.drop 26) bad
    { data := [], room := none } hiv (by omega) (by rw [List.length_drop]; omega)
  rw [← hsplit, List.drop_drop, nameBound_above e L (by omega) hL |>.symm] at hd
  unfold Encoder.readName
  simp only []
  rw [ReadFull_enough content bad 10 (by omega)]
  have hm8 : leValue (List.take 8 (List.take 10 content)) = MARKER := by
    rw [List.take_take]
    exact hm
  simp only [Option.isSome_none, Bool.false_eq_true, if_false, hm8, ne_eq, not_true_eq_false,
    hsize, hd, Write_unlimited, List.nil_append]
  rw [show 26 + (L - 16) = 10 + L by omega]

theorem readName_unbounded (e : Encoder) (content : Bytes) (L : Nat)
    (hlen : 26 ≤ content.length) (hm : leValue (content.take 8) = MARKER)
    (hsize : leValue ((content.take 10).drop 8) = L) (h16 : L ≤ 16) :
    e.readName { rest := content, bad := false } =
      NameStep.go { rest := [], bad := false }
        (xorKeyStream (e.stream ((content.drop 10).take 16)) 0 (content.drop 26)) := by
  have hsplit : content.drop 10 = (content.drop 10).take 16 ++ content.drop 26 := by
    have := (List.take_append_drop 16 (content.drop 10)).symm
    rwa [List.drop_drop] at this
  have hiv : ((content.drop 10).take 16).length = 16 := by
    rw [List.length_take, List.length_drop]
    omega
  have hd := decode_unbounded e (nameBound e L) ((content.drop 10).take 16) (content.drop 26)
    false { data := [], room := none } hiv (nameBound_below e L h16)
  rw [← hsplit] at hd
  unfold Encoder.readName
  simp only []
  rw [ReadFull_enough content false 10 (by omega)]
  have hm8 : leValue (List.take 8 (List.take 10 content)) = MARKER := by
    rw [List.take_take]
    exact hm
  simp only [Option.isSome_none, Bool.false_eq_true, if_false, hm8, ne_eq, not_true_eq_false,
    hsize, hd, Write_unlimited, List.nil_append]

/-! ## Theorems: EncodeFile and DecodeFile -/

theorem Write_fits (w : Writer) (b : Bytes) (h : ∀ k, w.room = some k → b.length ≤ k) :
    (w.Write b).1 = none := by
  cases w with
  | mk data room =>
    cases room with
    | none => rfl
    | some k => simp [Writer.Write, h k rfl]

theorem Write_room (w : Writer) (b : Bytes) :
    (w.Write b).2.room = w.room.map fun k => k - b.length := by
  cases w with
  | mk data room => cases room <;> rfl

theorem ReadFull_append (h r : Bytes) (bad : Bool) :
    Reader.ReadFull { rest := h ++ r, bad := bad } h.length =
      (h, none, { rest := r, bad := bad }) := by
  rw [ReadFull_enough _ _ _ (by simp), List.take_left, List.drop_left]

/-- The container `EncodeFile` aims at: header, name unit, content unit. -/
theorem readName_container (e : Encoder) (iv cname rest : Bytes) (bad : Bool)
    (hiv : iv.length = 16) (hn : cname ≠ []) (hlen : 16 + cname.length < 65536) :
    e.readName
        { rest := (lePut 8 MARKER ++ lePut 2 (16 + cname.length)) ++ ((iv ++ cname) ++ rest),
          bad := bad } =
      NameStep.go { rest := rest, bad := bad } (xorKeyStream (e.stream iv) 0 cname) := by
  have hpos : 0 < cname.length := List.length_pos.mpr hn
  have hhead : (lePut 8 MARKER ++ lePut 2 (16 + cname.length)).length = 10 := by
    simp [lePut_length]
  have hrf := ReadFull_append (lePut 8 MARKER ++ lePut 2 (16 + cname.length))
    ((iv ++ cname) ++ rest) bad
  rw [hhead] at hrf
  have hm : leValue (List.take 8 (lePut 8 MARKER ++ lePut 2 (16 + cname.length))) = MARKER := by
    have : List.take 8 (lePut 8 MARKER ++ lePut 2 (16 + cname.length)) = lePut 8 MARKER := by
      exact List.take_left' (lePut_length 8 MARKER)
    rw [this]
    exact MARKER_roundtrip
  have hs : leValue (List.drop 8 (lePut 8 MARKER ++ lePut 2 (16 + cname.length))) =
      16 + cname.length := by
    have : List.drop 8 (lePut 8 MARKER ++ lePut 2 (16 + cname.length)) =
        lePut 2 (16 + cname.length) := by
      exact List.drop_left' (lePut_length 8 MARKER)
    rw [this, leValue_lePut]
    exact Nat.mod_eq_of_lt (by norm_num; omega)
  have hb := nameBound_above e (16 + cname.length) (by omega) hlen
  rw [show 16 + cname.length - 16 = cname.length by omega] at hb
  have hd := decode_bounded e cname.length iv (cname ++ rest) bad { data := [], room := none }
    hiv hpos (by simp)
  rw [List.take_left, List.drop_left, ← List.append_assoc, ← hb] at hd
  unfold Encoder.readName
  simp only []
  rw [hrf]
  simp only [Option.isSome_none, Bool.false_eq_true, if_false, hm, ne_eq, not_true_eq_false,
    hs, hd, Write_unlimited, List.nil_append]

theorem EncodeFile_written (e : Encoder) (fs : FS) (N C tmp iv0 iv1 : Bytes)
    (room : Option Nat) (hN : fs N = some C) (htmp : fs tmp = none)
    (hfit : ∀ k, room = some k → 42 + N.length ≤ k) :
    e.EncodeFile { Env.quiet tmp iv0 iv1 with room := room } fs N =
      ((tmp, none),
        (fs.set tmp (some
          (Writer.Write { data := [], room := room } (specContainer e iv0 iv1 N C)).2.data)).set
          N none) := by
  have hname : e.encode (some iv0) { rest := N, bad := false } { data := [], room := none } =
      (none, { rest := [], bad := false },
        { data := ivOf iv0 ++ xorKeyStream (e.stream (ivOf iv0)) 0 N, room := none }) := by
    rw [encode_spec e iv0 N false { data := [], room := none } rfl]
    rfl
  have hnl : (ivOf iv0 ++ xorKeyStream (e.stream (ivOf iv0)) 0 N).length = 16 + N.length := by
    simp [ivOf_length, xorKeyStream_length]
  have h1 : (Writer.Write { data := [], room := room }
      (lePut 8 MARKER ++ lePut 2 (16 + N.length))).1 = none := by
    apply Write_fits
    intro k hk
    have := hfit k hk
    simp only [List.length_append, lePut_length]
    omega
  have h2 : ((Writer.Write { data := [], room := room }
      (lePut 8 MARKER ++ lePut 2 (16 + N.length))).2.Write
        (ivOf iv0 ++ xorKeyStream (e.stream (ivOf iv0)) 0 N)).1 = none := by
    apply Write_fits
    intro k hk
    rw [Write_room] at hk
    cases room with
    | none => cases hk
    | some k0 =>
      have := hfit k0 rfl
      simp only [Option.map_some', Option.some.injEq, List.length_append, lePut_length] at hk
      rw [hnl]
      omega
  have h3 : (((Writer.Write { data := [], room := room }
      (lePut 8 MARKER ++ lePut 2 (16 + N.length))).2.Write
        (ivOf iv0 ++ xorKeyStream (e.stream (ivOf iv0)) 0 N)).2.Write (ivOf iv1)).1 = none := by
    apply Write_fits
    intro k hk
    rw [Write_room, Write_room] at hk
    cases room with
    | none => cases hk
    | some k0 =>
      have := hfit k0 rfl
      simp only [Option.map_some', Option.some.injEq, List.length_append, lePut_length,
        ivOf_length, xorKeyStream_length] at hk
      rw [ivOf_length]
      omega
  have hc := encode_spec e iv1 C false _ h3
  have hw := WipeFile_quiet C
  unfold Encoder.EncodeFile
  simp only [Env.quiet, hN, htmp, Option.isSome_none, Bool.false_eq_true, Bool.or_self, if_false,
    if_true, one_ne_zero, hname, hnl, h1, h2, openReader, hc, WipeFaults.none] at hw ⊢
  simp only [hw, Option.isSome_none, Bool.false_eq_true, if_false, specContainer, Write_Write,
    List.append_assoc]

theorem DecodeFile_container (e : Encoder) (fs : FS) (path iv0 iv1 N C tmp a b : Bytes)
    (hp : fs path = some (specContainer e iv0 iv1 N C)) (hn : N ≠ [])
    (hlen : 16 + N.length < 65536) :
    e.DecodeFile (Env.quiet tmp a b) fs path =
      ((N, none), (fs.set N (some (overwrite ((fs N).getD []) C))).set path none) := by
  have hcn : xorKeyStream (e.stream (ivOf iv0)) 0 N ≠ [] := by
    intro h0
    have := congrArg List.length h0
    rw [xorKeyStream_length] at this
    exact hn (List.length_eq_zero.mp this)
  have hr := readName_container e (ivOf iv0) (xorKeyStream (e.stream (ivOf iv0)) 0 N)
    (ivOf iv1 ++ xorKeyStream (e.stream (ivOf iv1)) 0 C) false (ivOf_length iv0) hcn
    (by rw [xorKeyStream_length]; exact hlen)
  rw [xorKeyStream_length, xorKeyStream_twice] at hr
  have hd := decode_unbounded e 0 (ivOf iv1) (xorKeyStream (e.stream (ivOf iv1)) 0 C) false
    { data := [], room := none } (ivOf_length iv1) (le_refl 0)
  rw [xorKeyStream_twice, Write_unlimited] at hd
  have hw := WipeFile_quiet (specContainer e iv0 iv1 N C)
  unfold Encoder.DecodeFile
  simp only [Env.quiet, hp, openReader]
  unfold specContainer
  rw [hr]
  simp only [Bool.false_or, decide_eq_true_eq, hn, if_false, hd, Bool.false_eq_true,
    Option.isSome_none, List.nil_append]
  unfold specContainer at hw
  simp only [hw, Option.isSome_none, Bool.false_eq_true, if_false]

/-- C1: for every encoder (whatever its key and key stream), every content
`C`, every non-empty name `N` whose encrypted name unit fits the two-byte
length field, and whatever IVs `rand.Reader` delivers, when no I/O step
fails `EncodeFile` on the file named `N` returns the container path without
error and removes the original, and `DecodeFile` with the same encoder on
that container returns exactly `N` without error, leaves a file named `N`
holding exactly `C`, removes the container and touches no other file. -/
theorem encode_then_decode (e : Encoder) (fs : FS) (N C tmp iv0 iv1 tmp2 iv2 iv3 : Bytes)
    (hN : fs N = some C) (htmp : fs tmp = none) (hn : N ≠ [])
    (hlen : 16 + N.length < 65536) :
    (e.EncodeFile (Env.quiet tmp iv0 iv1) fs N).1 = (tmp, none) ∧
    (e.EncodeFile (Env.quiet tmp iv0 iv1) fs N).2 N = none ∧
    (e.DecodeFile (Env.quiet tmp2 iv2 iv3) (e.EncodeFile (Env.quiet tmp iv0 iv1) fs N).2
      (e.EncodeFile (Env.quiet tmp iv0 iv1) fs N).1.1).1 = (N, none) ∧
    (e.DecodeFile (Env.quiet tmp2 iv2 iv3) (e.EncodeFile (Env.quiet tmp iv0 iv1) fs N).2
      (e.EncodeFile (Env.quiet tmp iv0 iv1) fs N).1.1).2 N = some C ∧
    (e.DecodeFile (Env.quiet tmp2 iv2 iv3) (e.EncodeFile (Env.quiet tmp iv0 iv1) fs N).2
      (e.EncodeFile (Env.quiet tmp iv0 iv1) fs N).1.1).2 tmp = none ∧
    ∀ p, p ≠ N → p ≠ tmp →
      (e.DecodeFile (Env.quiet tmp2 iv2 iv3) (e.EncodeFile (Env.quiet tmp iv0 iv1) fs N).2
        (e.EncodeFile (Env.quiet tmp iv0 iv1) fs N).1.1).2 p = fs p := by
  have hne : tmp ≠ N := by
    intro h
    rw [h, hN] at htmp
    cases htmp
  have henc : e.EncodeFile (Env.quiet tmp iv0 iv1) fs N =
      ((tmp, none), (fs.set tmp (some (specContainer e iv0 iv1 N C))).set N none) :=
    EncodeFile_written e fs N C tmp iv0 iv1 none hN htmp (by intro k hk; cases hk)
  have hp : ((fs.set tmp (some (specContainer e iv0 iv1 N C))).set N none) tmp =
      some (specContainer e iv0 iv1 N C) := by
    simp [FS.set, hne]
  have hdec := DecodeFile_container e _ tmp iv0 iv1 N C tmp2 iv2 iv3 hp hn hlen
  rw [henc]
  show _ ∧ _ ∧ (e.DecodeFile (Env.quiet tmp2 iv2 iv3)
      ((fs.set tmp (some (specContainer e iv0 iv1 N C))).set N none) tmp).1 = (N, none) ∧
    (e.DecodeFile (Env.quiet tmp2 iv2 iv3)
      ((fs.set tmp (some (specContainer e iv0 iv1 N C))).set N none) tmp).2 N = some C ∧
    (e.DecodeFile (Env.quiet tmp2 iv2 iv3)
      ((fs.set tmp (some (specContainer e iv0 iv1 N C))).set N none) tmp).2 tmp = none ∧
    ∀ p, p ≠ N → p ≠ tmp →
      (e.DecodeFile (Env.quiet tmp2 iv2 iv3)
        ((fs.set tmp (some (specContainer e iv0 iv1 N C))).set N none) tmp).2 p = fs p
  rw [hdec]
  refine ⟨rfl, ?_, rfl, ?_, ?_, ?_⟩
  · simp [FS.set]
  · simp [FS.set, hne.symm, overwrite]
  · simp [FS.set]
  · intro p h1 h2
    simp [FS.set, h1, h2]

theorem encode_then_decode_witness :
    (refEncoder.EncodeFile (Env.quiet [116] [1, 2] [3])
      (FS.set (fun _ => none) [97, 46, 116, 120, 116] (some [104, 105]))
      [97, 46, 116, 120, 116]).1 = ([116], none) ∧
    (refEncoder.DecodeFile (Env.quiet [117] [] [])
      (refEncoder.EncodeFile (Env.quiet [116] [1, 2] [3])
        (FS.set (fun _ => none) [97, 46, 116, 120, 116] (some [104, 105]))
        [97, 46, 116, 120, 116]).2
      (refEncoder.EncodeFile (Env.quiet [116] [1, 2] [3])
        (FS.set (fun _ => none) [97, 46, 116, 120, 116] (some [104, 105]))
        [97, 46, 116, 120, 116]).1.1).2 [97, 46, 116, 120, 116] = some [104, 105] := by
  have h := encode_then_decode refEncoder
    (FS.set (fun _ => none) [97, 46, 116, 120, 116] (some [104, 105]))
    [97, 46, 116, 120, 116] [104, 105] [116] [1, 2] [3] [117] [] []
    (by decide) (by decide) (by decide) (by decide)
  exact ⟨h.1, h.2.2.2.1⟩

/-- C2, what the code does: on a file of at least ten bytes whose first
eight bytes are not the marker, `DecodeFile` and `DecodeFileName` return the
empty name together with a nil error (the `err` returned is the nil result
of the header read); `DecodeFile` leaves the directory as it was. -/
theorem bad_marker_returns_nil (e : Encoder) (env : Env) (fs : FS) (path content : Bytes)
    (hopen : env.openErr = none) (hbad : env.readBad = none) (hp : fs path = some content)
    (hlen : 10 ≤ content.length) (hm : leValue (content.take 8) ≠ MARKER) :
    e.DecodeFile env fs path = (([], none), fs) ∧
    e.DecodeFileName env fs path = ([], none) := by
  have hr : e.readName { rest := content, bad := false } = NameStep.ret none := by
    unfold Encoder.readName
    simp only []
    rw [ReadFull_enough content false 10 hlen]
    have hm8 : leValue (List.take 8 (List.take 10 content)) ≠ MARKER := by
      rw [List.take_take]
      exact hm
    simp only [Option.isSome_none, Bool.false_eq_true, if_false, ne_eq, hm8, not_false_eq_true,
      if_true]
  constructor
  · unfold Encoder.DecodeFile
    simp only [hopen, hbad, hp, openReader, hr]
  · unfold Encoder.DecodeFileName
    simp only [hopen, hbad, hp, openReader, hr]

theorem bad_marker_returns_nil_witness :
    refEncoder.DecodeFile (Env.quiet [] [] []) (oneFile [120] (List.replicate 10 0)) [120] =
      (([], none), oneFile [120] (List.replicate 10 0)) ∧
    refEncoder.DecodeFileName (Env.quiet [] [] []) (oneFile [120] (List.replicate 10 0)) [120] =
      ([], none) :=
  bad_marker_returns_nil refEncoder (Env.quiet [] [] []) (oneFile [120] (List.replicate 10 0))
    [120] (List.replicate 10 0) rfl rfl (by decide) (by decide) (by decide)

/-- C3, what the code does: when the output medium accepts the header, the
name unit and the content IV but not the whole content ciphertext, the error
of the failed chunk `Write` is dropped: `EncodeFile` returns the temporary
path with a nil error, the original file is wiped and removed, and the
temporary file holds only a proper prefix of the container. -/
theorem short_write_destroys_original (e : Encoder) (fs : FS) (N C tmp iv0 iv1 : Bytes)
    (k : Nat) (hN : fs N = some C) (htmp : fs tmp = none) (hk : 42 + N.length ≤ k)
    (hshort : k < 42 + N.length + C.length) :
    (e.EncodeFile { Env.quiet tmp iv0 iv1 with room := some k } fs N).1 = (tmp, none) ∧
    (e.EncodeFile { Env.quiet tmp iv0 iv1 with room := some k } fs N).2 N = none ∧
    (e.EncodeFile { Env.quiet tmp iv0 iv1 with room := some k } fs N).2 tmp =
      some ((specContainer e iv0 iv1 N C).take k) ∧
    ((specContainer e iv0 iv1 N C).take k).length < (specContainer e iv0 iv1 N C).length := by
  have hne : tmp ≠ N := by
    intro h
    rw [h, hN] at htmp
    cases htmp
  rw [EncodeFile_written e fs N C tmp iv0 iv1 (some k) hN htmp (by
    intro k0 h0
    cases h0
    exact hk)]
  refine ⟨rfl, ?_, ?_, ?_⟩
  · simp [FS.set]
  · simp [FS.set, hne, Writer.Write]
  · simp only [specContainer, List.length_take, List.length_append, lePut_length, ivOf_length,
      xorKeyStream_length]
    omega

theorem short_write_destroys_original_witness :
    (refEncoder.EncodeFile { Env.quiet [116] [1, 2] [3] with room := some 43 }
      (oneFile [97] [1, 2, 3]) [97]).1 = ([116], none) ∧
    (refEncoder.EncodeFile { Env.quiet [116] [1, 2] [3] with room := some 43 }
      (oneFile [97] [1, 2, 3]) [97]).2 [97] = none ∧
    (refEncoder.EncodeFile { Env.quiet [116] [1, 2] [3] with room := some 43 }
      (oneFile [97] [1, 2, 3]) [97]).2 [116] =
      some [215, 33, 166, 250, 161, 21, 45, 200, 17, 0, 1, 2, 0, 0, 0, 0, 0, 0, 0, 0, 0, 0, 0,
        0, 0, 0, 99, 3, 0, 0, 0, 0, 0, 0, 0, 0, 0, 0, 0, 0, 0, 0, 0] := by
  have h := short_write_destroys_original refEncoder (oneFile [97] [1, 2, 3]) [97] [1, 2, 3]
    [116] [1, 2] [3] 43 (by decide) (by decide) (by decide) (by decide)
  exact ⟨h.1, h.2.1, h.2.2.1.trans (by decide)⟩

/-! ## Theorems: WipeFile -/

theorem wipeBuffer_first (size : Nat) (h : 0 < size) :
    wipeBuffer size 0 = 0x30 :: List.replicate (min chunk size - 1) 0 := by
  unfold wipeBuffer copy
  have hm : 0 < min chunk size := by
    unfold chunk
    omega
  obtain ⟨m, hm1⟩ : ∃ m, min chunk size = m + 1 := ⟨min chunk size - 1, by omega⟩
  simp only [Nat.zero_mul, Nat.sub_zero, hm1, List.length_replicate, List.length_singleton,
    Nat.add_sub_cancel]
  simp [List.replicate_succ]

theorem WriteAt_head (data buf : Bytes) (pos : Nat) (hpos : 0 < pos) (hd : data ≠ []) :
    (WriteAt data buf pos).head? = data.head? ∧ WriteAt data buf pos ≠ [] := by
  cases data with
  | nil => exact absurd rfl hd
  | cons d ds =>
    obtain ⟨p, rfl⟩ : ∃ p, pos = p + 1 := ⟨pos - 1, by omega⟩
    simp [WriteAt]

theorem wipeLoop_head (F : WipeFaults) (size : Nat) :
    ∀ (n i pos : Nat) (data : Bytes), 0 < pos → data ≠ [] →
      (wipeLoop F size n i pos data).2.1.head? = data.head? := by
  intro n
  induction n with
  | zero => intro i pos data _ _; rfl
  | succ n ih =>
    intro i pos data hpos hd
    simp only [wipeLoop]
    split
    · rfl
    · have hw := WriteAt_head data (wipeBuffer size i) pos hpos hd
      simp only []
      rw [ih (i + 1) (pos + (wipeBuffer size i).length) _ (by omega) hw.2]
      exact hw.1

theorem WipeFile_quiet_eq (data : Bytes) :
    WipeFile WipeFaults.none data =
      (none, Truncate (wipeLoop WipeFaults.none data.length (wipeParts data.length) 0 0 data).2.1
        1) := by
  unfold WipeFile
  have h := wipeLoop_quiet data.length (wipeParts data.length) 0 0 data
  simp only [WipeFaults.none, Bool.false_eq_true, if_false] at h ⊢
  rw [h]

/-- C4, what the code does: on every non-empty file, when no I/O step
fails, the first buffer `WipeFile` writes (at offset 0) starts with the byte
0x30, the character `0` copied into it, followed by zero bytes; after the
truncation to length 1 the file consists of that byte 0x30, not of a zero
byte. -/
theorem wipe_leaves_0x30 (data : Bytes) (h : data ≠ []) :
    (wipeWrites WipeFaults.none data).head? =
      some (0, 0x30 :: List.replicate (min chunk data.length - 1) 0) ∧
    WipeFile WipeFaults.none data = (none, [0x30]) := by
  have hlen : 0 < data.length := List.length_pos.mpr h
  obtain ⟨m, hm⟩ : ∃ m, wipeParts data.length = m + 1 := by
    refine ⟨wipeParts data.length - 1, ?_⟩
    have : 1 ≤ wipeParts data.length := by
      unfold wipeParts chunk
      omega
    omega
  have hb := wipeBuffer_first data.length hlen
  have hstep : wipeLoop WipeFaults.none data.length (m + 1) 0 0 data =
      ((wipeLoop WipeFaults.none data.length m 1 (0 + (wipeBuffer data.length 0).length)
          (WriteAt data (wipeBuffer data.length 0) 0)).1,
        (wipeLoop WipeFaults.none data.length m 1 (0 + (wipeBuffer data.length 0).length)
          (WriteAt data (wipeBuffer data.length 0) 0)).2.1,
        (0, wipeBuffer data.length 0) ::
          (wipeLoop WipeFaults.none data.length m 1 (0 + (wipeBuffer data.length 0).length)
            (WriteAt data (wipeBuffer data.length 0) 0)).2.2) := by
    simp [wipeLoop, WipeFaults.none]
  have hw0 : WriteAt data (wipeBuffer data.length 0) 0 =
      0x30 :: (List.replicate (min chunk data.length - 1) 0 ++
        data.drop (0 + (wipeBuffer data.length 0).length)) := by
    simp [WriteAt, hb]
  have hhead : (wipeLoop WipeFaults.none data.length (m + 1) 0 0 data).2.1.head? = some 0x30 := by
    rw [hstep]
    simp only []
    rw [wipeLoop_head _ _ _ _ _ _ (by rw [hb]; simp) (by rw [hw0]; simp), hw0]
    rfl
  constructor
  · unfold wipeWrites
    rw [hm, hstep, hb]
    rfl
  · rw [WipeFile_quiet_eq, hm]
    cases hc : (wipeLoop WipeFaults.none data.length (m + 1) 0 0 data).2.1 with
    | nil =>
      rw [hc] at hhead
      cases hhead
    | cons c cs =>
      rw [hc] at hhead
      simp only [List.head?_cons, Option.some.injEq] at hhead
      subst hhead
      simp [Truncate]

theorem wipe_leaves_0x30_witness :
    (wipeWrites WipeFaults.none [7, 7, 7]).head? = some (0, [0x30, 0, 0]) ∧
    WipeFile WipeFaults.none [7, 7, 7] = (none, [0x30]) := by
  have h := wipe_leaves_0x30 [7, 7, 7] (by decide)
  exact ⟨h.1.trans (by decide), h.2⟩

/-! ## Theorems: the name unit -/

/-- C10, as stated, fails: in a container with the marker and length field
`L = 16`, where the 16 bytes of the name unit are followed by a content unit
of 17 bytes, the name decode leaves the reader at the end of the file, having
consumed all 33 bytes, and yields a name of 17 bytes, more than `L - 16 = 0`;
`DecodeFileName` returns that name. -/
theorem short_length_reads_to_end :
    leValue (shortNameContainer.take 8) = MARKER ∧
    leValue ((shortNameContainer.take 10).drop 8) = 16 ∧
    (shortNameContainer.drop 10).length = 33 ∧
    refEncoder.readName { rest := shortNameContainer, bad := false } =
      NameStep.go { rest := [], bad := false }
        [18, 5, 28, 23, 46, 33, 56, 51, 74, 77, 84, 95, 102, 105, 112, 123, 186] ∧
    refEncoder.DecodeFileName (Env.quiet [] [] []) (oneFile [120] shortNameContainer) [120] =
      ([18, 5, 28, 23, 46, 33, 56, 51, 74, 77, 84, 95, 102, 105, 112, 123, 186], none) := by
  refine ⟨by decide, by decide, by decide, by rfl, by decide⟩

/-- C10, amended: for every container whose first 8 bytes are the marker
and whose two-byte length field is `L`: when `L` is greater than the block
size 16 and `L` bytes follow the header, the name decode of `DecodeFileName`
and `DecodeFile` consumes exactly those `L` bytes (16 bytes of IV, then
`L - 16` bytes of ciphertext), yields a name of exactly `L - 16` bytes and
leaves the reader at the first byte of the content unit, and
`DecodeFileName` returns that name without error; when `L` is at most 16 the
bound passed to `decode` is not positive, no limit applies, and the name
decode reads to the end of the file. -/
theorem name_decode_consumes_L (e : Encoder) (fs : FS) (path content : Bytes) (L : Nat)
    (hp : fs path = some content) (hlen : 26 ≤ content.length)
    (hm : leValue (content.take 8) = MARKER)
    (hsize : leValue ((content.take 10).drop 8) = L) (hL : L < 65536) :
    (16 < L → 10 + L ≤ content.length →
      e.readName { rest := content, bad := false } =
        NameStep.go { rest := content.drop (10 + L), bad := false }
          (xorKeyStream (e.stream ((content.drop 10).take 16)) 0
            ((content.drop 26).take (L - 16))) ∧
      (xorKeyStream (e.stream ((content.drop 10).take 16)) 0
        ((content.drop 26).take (L - 16))).length = L - 16 ∧
      ∀ tmp a b, e.DecodeFileName (Env.quiet tmp a b) fs path =
        (xorKeyStream (e.stream ((content.drop 10).take 16)) 0
          ((content.drop 26).take (L - 16)), none)) ∧
    (L ≤ 16 →
      e.readName { rest := content, bad := false } =
        NameStep.go { rest := [], bad := false }
          (xorKeyStream (e.stream ((content.drop 10).take 16)) 0 (content.drop 26))) := by
  refine ⟨fun h16 hfull => ?_, fun h16 => readName_unbounded e content L hlen hm hsize h16⟩
  have hr := readName_spec e content false L hfull hm hsize h16 hL
  refine ⟨hr, ?_, ?_⟩
  · rw [xorKeyStream_length, List.length_take, List.length_drop]
    omega
  · intro tmp a b
    unfold Encoder.DecodeFileName
    simp only [Env.quiet, hp, openReader, hr]

theorem name_decode_consumes_L_witness :
    refEncoder.readName { rest := specContainer refEncoder [1, 2] [3] [97] [1, 2, 3], bad := false } =
      NameStep.go { rest := (specContainer refEncoder [1, 2] [3] [97] [1, 2, 3]).drop 27,
                    bad := false } [97] := by
  have h := name_decode_consumes_L refEncoder
    (oneFile [116] (specContainer refEncoder [1, 2] [3] [97] [1, 2, 3])) [116]
    (specContainer refEncoder [1, 2] [3] [97] [1, 2, 3]) 17
    (by decide) (by decide) (by decide) (by decide) (by decide)
  exact (h.1 (by decide) (by decide)).1.trans (by rfl)

end Silenda
